import Mathlib

/-!
Verification of the reroi reactive dataflow engine.

This development embeds the core of the engine in Lean 4:

* the priority helpers of `src/priority.ts`,
* the `SparseArray` ordered container of `src/lib/sparseArray.ts`
  (an index-sorted doubly linked list, embedded here as an
  ascending-sorted association list),
* the reactive node model and the depth-first, priority-ordered
  notification engine of `src/fluid.ts` (`notifyDeps`, `read`, `write`,
  `derive`, `listen`),
* the transaction engine of `src/transaction.ts` (`writeT`, `composeT`
  with its `silentRun` / `run` protocol), and
* the cascading destruction protocol, modelled from the specification
  (the current core module `reroi.ts` that implements `isDestroyed` and
  the destroyed-read guard is not part of the sources; only its tests,
  type declarations and callers are).

Effect closures are defunctionalised: a listener records which nodes its
effect reads and how the observed values are folded into a recorded
result, and the state carries an instrumentation log of listener firings
and of compute-function invocations, so that claims of the form
"fires exactly once" or "in this order" become statements about the log.
-/

set_option linter.unusedVariables false

namespace Reroi

/-! ### Transaction state (src/type.ts, src/transaction.ts)

`TransactionState` is the tagged Success / Error result of a transaction. -/

inductive TState (R : Type u) (E : Type v) where
  | success (value : R)
  | error (e : E)
deriving DecidableEq

def TState.isSuccess : TState R E → Bool
  | .success _ => true
  | .error _ => false

def TState.isError : TState R E → Bool
  | .success _ => false
  | .error _ => true

/-! ### Priorities (src/priority.ts)

`plowest` / `phighest` are the numeric sentinels; `before` / `after`
accept either a raw priority or a derivation and pivot on its current
priority.  Crossing the opposite sentinel throws, embedded as `Except`. -/

def plowest : Int := -1000

def phighest : Int := 1000

/-- Argument of `priorities.before` / `priorities.after`: either a raw
priority (the `typeof p0 === "number"` branch) or a derivation, from
which the current `priority` field is taken. -/
inductive PriorityArg where
  | raw (p : Int)
  | derv (priority : Int)

def PriorityArg.pivot : PriorityArg → Int
  | .raw p => p
  | .derv p => p

def priorities.before (p0 : PriorityArg) : Except String Int :=
  let p := p0.pivot
  if p ≥ phighest then
    .error "Fluid: Cannot use before with priority bigger then the highest!"
  else
    .ok (p + 1)

def priorities.after (p0 : PriorityArg) : Except String Int :=
  let p := p0.pivot
  if p ≤ plowest then
    .error "Fluid: Cannot use after with priority lower then the lowest!"
  else
    .ok (p - 1)

/-! ### Association lists

Node states are addressed by natural-number handles; the JS objects and
`Map`s of the source become association lists over those handles. -/

/-- Lookup in an association list (first binding wins). -/
def aget (l : List (Nat × β)) (n : Nat) : Option β :=
  match l.find? (fun e => e.1 == n) with
  | some e => some e.2
  | none => none

/-- Insert-or-replace in an association list. -/
def aset : List (Nat × β) → Nat → β → List (Nat × β)
  | [], n, v => [(n, v)]
  | e :: rest, n, v => if e.1 = n then (n, v) :: rest else e :: aset rest n v

/-- Delete a binding from an association list. -/
def adel (l : List (Nat × β)) (n : Nat) : List (Nat × β) :=
  l.filter (fun e => e.1 != n)

/-- Concatenation of a list of lists (kept local to avoid library drift). -/
def cat : List (List α) → List α
  | [] => []
  | l :: ls => l ++ cat ls

/-! ### SparseArray (src/lib/sparseArray.ts)

The source keeps an index-sorted doubly linked list with a node map;
`push` walks from the largest index down to the insertion point and
replaces an existing node with the same index.  We embed the container
as an association list sorted by strictly ascending index (the source
`forEach` order, tail to head); `push` is the sorted insert-or-replace
realising exactly the linked-list insertion. -/

abbrev SparseList (α : Type u) := List (Int × α)

namespace SparseList

/-- `SparseArray.get`. -/
def get (l : SparseList α) (i : Int) : Option α :=
  match l.find? (fun e => e.1 == i) with
  | some e => some e.2
  | none => none

/-- `SparseArray.push(value, index)`: sorted insert, replacing the node
already stored at an equal index. -/
def push : SparseList α → α → Int → SparseList α
  | [], v, i => [(i, v)]
  | (j, w) :: rest, v, i =>
    if i < j then (i, v) :: (j, w) :: rest
    else if i = j then (i, v) :: rest
    else (j, w) :: push rest v i

/-- Ascending-index sortedness: the invariant maintained by `push`. -/
def Sorted (l : SparseList α) : Prop :=
  l.Pairwise (fun a b => a.1 < b.1)

instance (l : SparseList α) : Decidable (Sorted l) := by
  unfold Sorted; infer_instance

end SparseList

/-! ### The reactive node model (src/fluid.ts)

Handles are natural numbers.  A subscriber stored in a dependents pool
is either a derivation or a listener (`_ReactiveListener` in the
source).  The model keeps the immutable wiring (`Topology`) separate
from the mutable per-node state (`RState`); during one notification wave
the wiring is fixed, exactly as in the claims under verification.

Model restrictions (documented, not affecting the claims): derivations
have a single source and that source is a Value; a listener effect is
defunctionalised as the list of nodes it reads (its registered sources
followed by any extra reads made inside the callback) plus a fold of the
observed values into a recorded result. -/

/-- A member of a dependents pool: a derivation or a listener. -/
inductive Sub where
  | derv (id : Nat)
  | lstn (id : Nat)
deriving DecidableEq

/-- A derivation (`derive(source, fn, { priority })` with a Value source). -/
structure Deriv (V : Type u) where
  source : Nat
  fn : V → V
  priority : Int

/-- A listener (`listen(sources, fn, props)`), defunctionalised:
its effect reads `sources ++ extraReads` in order and records
`f` of the observed values in the log. -/
structure Listener (V : Type u) (W : Type v) where
  sources : List Nat
  extraReads : List Nat
  f : List V → W
  priority : Int
  once : Bool

/-- The wiring of the reactive graph: dependents pools of Values and of
Derivations, plus the derivation and listener records. Pools of
derivations hold listeners (in the claims under study only listeners
subscribe to derivations). -/
structure Topology (V : Type u) (W : Type v) where
  valuePools : List (Nat × SparseList (List Sub))
  derivs : List (Nat × Deriv V)
  derivPools : List (Nat × SparseList (List Nat))
  listeners : List (Nat × Listener V W)

/-- The mutable state: current values, the derivation caches (a binding
present means the cache is valid; absent means `nullCache`), the
instrumentation counters of compute-function invocations, and the log of
listener firings `(listener id, recorded result)`. -/
structure RState (V : Type u) (W : Type v) where
  values : List (Nat × V)
  caches : List (Nat × V)
  counts : List (Nat × Nat)
  log : List (Nat × W)
deriving DecidableEq

variable {V : Type u} {W : Type v}

/-- `Fluid.read`: a Value returns its stored value; a derivation returns
its cache when valid, otherwise computes `fn` of its source, fills the
cache (and bumps the instrumentation counter).  Reading an unknown
handle yields `default` (the source throws there; no claim exercises
it). -/
def readNode [Inhabited V] (T : Topology V W) (σ : RState V W) (n : Nat) :
    V × RState V W :=
  match aget σ.values n with
  | some v => (v, σ)
  | none =>
    match aget T.derivs n with
    | some d =>
      match aget σ.caches n with
      | some c => (c, σ)
      | none =>
        let v := d.fn ((aget σ.values d.source).getD default)
        (v, { σ with
                caches := aset σ.caches n v,
                counts := aset σ.counts n ((aget σ.counts n).getD 0 + 1) })
    | none => (default, σ)

/-- Sequential reads, threading the state (cache fills persist). -/
def readMany [Inhabited V] (T : Topology V W) (σ : RState V W) :
    List Nat → List V × RState V W
  | [] => ([], σ)
  | n :: ns =>
    let (v, σ1) := readNode T σ n
    let (vs, σ2) := readMany T σ1 ns
    (v :: vs, σ2)

/-- Execution of one listener effect (`react` in the source): read the
sources and the callback reads, record the folded result in the log. -/
def runListener [Inhabited V] (T : Topology V W) (σ : RState V W) (l : Nat) :
    RState V W :=
  match aget T.listeners l with
  | none => σ
  | some L =>
    let (vs, σ1) := readMany T σ (L.sources ++ L.extraReads)
    { σ1 with log := σ1.log ++ [(l, L.f vs)] }

/-- Cache invalidation: `_onMessage(source, UPDATE)` of a derivation
clears the cache and nothing else. -/
def invalidate (σ : RState V W) (n : Nat) : RState V W :=
  { σ with caches := adel σ.caches n }

/-- Stack fill order of `notifyDeps`: pools are traversed in ascending
priority (`SparseArray.forEach`) and each pool is pushed reversed, so
that popping from the top yields descending priority, each pool in
insertion order. -/
def fillStack (pool : SparseList (List Sub)) : List Sub :=
  pool.foldl (fun st e => st ++ e.2.reverse) []

/-- The order in which `notifyDeps` pops the seeded stack. -/
def popOrder (pool : SparseList (List Sub)) : List Sub :=
  (fillStack pool).reverse

/-- Dependents of a derivation, in pop order (its pools hold listeners). -/
def derivDependents (T : Topology V W) (d : Nat) : List Nat :=
  (popOrder ((((aget T.derivPools d).getD []).map
    (fun e => (e.1, e.2.map Sub.lstn))))).map
    (fun s => match s with | .derv i => i | .lstn i => i)

/-- Weight of a stack entry: handling a listener is one step; handling a
derivation is one step plus one step per dependent it pushes. -/
def subWeight (T : Topology V W) : Sub → Nat
  | .lstn _ => 1
  | .derv d => 1 + (derivDependents T d).length

/-- Total number of steps the notification loop takes from a stack. -/
def stackWeight (T : Topology V W) (stack : List Sub) : Nat :=
  (stack.map (subWeight T)).sum

/-- The work-stack loop of `notifyDeps`: pop a subscriber, deliver
`onMessage` (a derivation clears its cache, a listener reacts), then
push the popped subscriber's own dependents.  The head of the list is
the top of the stack.  Each step consumes one unit of fuel;
`stackWeight` units always suffice. -/
def notifyLoop [Inhabited V] (T : Topology V W) :
    Nat → List Sub → RState V W → RState V W
  | 0, _, σ => σ
  | _ + 1, [], σ => σ
  | fuel + 1, .lstn l :: rest, σ =>
    notifyLoop T fuel rest (runListener T σ l)
  | fuel + 1, .derv d :: rest, σ =>
    notifyLoop T fuel ((derivDependents T d).map Sub.lstn ++ rest)
      (invalidate σ d)

/-- `notifyDeps(value, UPDATE)`: seed the stack from the value's
dependents pool and run the loop. -/
def notifyDeps [Inhabited V] (T : Topology V W) (σ : RState V W) (n : Nat) :
    RState V W :=
  let stack := popOrder ((aget T.valuePools n).getD [])
  notifyLoop T (stackWeight T stack) stack σ

/-- `Fluid.write`: unconditionally store the new value, then notify the
dependents with an Update signal. -/
def write [Inhabited V] (T : Topology V W) (σ : RState V W) (n : Nat) (v : V) :
    RState V W :=
  notifyDeps T { σ with values := aset σ.values n v } n

/-! ### Registration operations (src/fluid.ts: `val`, `derive`, `listen`) -/

/-- The empty topology. -/
def Topology.empty : Topology V W := ⟨[], [], [], []⟩

/-- The empty state. -/
def RState.empty : RState V W := ⟨[], [], [], []⟩

/-- Modify a Value's dependents pool, creating it when absent
(`source.dependencies` is always present on a Value). -/
def updPool (T : Topology V W) (src : Nat)
    (g : SparseList (List Sub) → SparseList (List Sub)) : Topology V W :=
  { T with
    valuePools := aset T.valuePools src (g ((aget T.valuePools src).getD [])) }

/-- `getOrMake(priority)` followed by `pool.add(sub)`: JS `Set.add`
appends when absent and keeps insertion order. -/
def poolAdd (pool : SparseList (List Sub)) (p : Int) (s : Sub) :
    SparseList (List Sub) :=
  let cur := (SparseList.get pool p).getD []
  SparseList.push pool (if s ∈ cur then cur else cur ++ [s]) p

/-- `getOrMake(priority)` followed by `pool.delete(sub)`. -/
def poolRemove (pool : SparseList (List Sub)) (p : Int) (s : Sub) :
    SparseList (List Sub) :=
  let cur := (SparseList.get pool p).getD []
  SparseList.push pool (cur.filter (fun x => x != s)) p

/-- `Fluid.val(value)`: a fresh Value with an empty dependents pool. -/
def mkVal (T : Topology V W) (σ : RState V W) (n : Nat) (v : V) :
    Topology V W × RState V W :=
  ({ T with valuePools := aset T.valuePools n [] },
   { σ with values := aset σ.values n v })

/-- `Fluid.derive(source, fn, { priority })` for a Value source: create
the derivation with an empty cache and subscribe it to the source's pool
at its priority. -/
def mkDerive (T : Topology V W) (n : Nat) (src : Nat) (fn : V → V)
    (prio : Int) : Topology V W :=
  let T1 := { T with derivs := aset T.derivs n ⟨src, fn, prio⟩,
                     derivPools := aset T.derivPools n [] }
  updPool T1 src (fun pool => poolAdd pool prio (.derv n))

/-- The unsubscribe closure returned by `listen`: remove the listener
from every source's pool at the registration priority. -/
def unsubL (T : Topology V W) (l : Nat) (srcs : List Nat) (prio : Int) :
    Topology V W :=
  srcs.foldl (fun t s => updPool t s (fun pool => poolRemove pool prio (.lstn l))) T

/-- `Fluid.listen(sources, fn, props)` for Value sources: record the
listener, subscribe it to every source's pool, then — when `immidiate`
is set — run the effect once with the current values; an effect built
with `once` unsubscribes right after the callback. -/
def mkListen [Inhabited V] (T : Topology V W) (σ : RState V W) (l : Nat)
    (srcs : List Nat) (extra : List Nat) (f : List V → W) (prio : Int)
    (immediate : Bool) (once : Bool) : Topology V W × RState V W :=
  let L : Listener V W := ⟨srcs, extra, f, prio, once⟩
  let T1 :=
    srcs.foldl (fun t s => updPool t s (fun pool => poolAdd pool prio (.lstn l)))
      { T with listeners := aset T.listeners l L }
  if immediate then
    let σ1 := runListener T1 σ l
    (if once then unsubL T1 l srcs prio else T1, σ1)
  else
    (T1, σ)

/-! ### Transactions (src/transaction.ts)

`writeT(target, producer, id)` defers a write to a Value; the producer is
either a literal (always Success) or a function of the target's current
value and the accumulated context.  `composeT` threads one context
through the children's `silentRun`s in argument order, short-circuiting
on the first Error, and only on overall success performs every child's
write and fires one notification wave over the merged pools. -/

/-- Accumulated composition context: id-keyed results of earlier
successful children (a JS object; assignment overwrites). -/
abbrev Ctx (V : Type u) := List (String × V)

def ctxGet (c : Ctx V) (k : String) : Option V :=
  match c.find? (fun e => e.1 == k) with
  | some e => some e.2
  | none => none

def ctxSet : Ctx V → String → V → Ctx V
  | [], k, v => [(k, v)]
  | e :: rest, k, v => if e.1 = k then (k, v) :: rest else e :: ctxSet rest k v

/-- The second argument of `transaction.write`: a plain value or a
producer function. -/
inductive Producer (V : Type u) (E : Type v) where
  | lit (v : V)
  | pfn (f : V → Ctx V → TState V E)

/-- A leaf write transaction (`writeT`). -/
structure WTr (V : Type u) (E : Type v) where
  target : Nat
  producer : Producer V E
  id : Option String

/-- `runTransaction`: a function producer is applied to the target's
current value and the context; a plain value is always Success. -/
def runTransaction [Inhabited V] (σ : RState V W) (tr : WTr V E)
    (ctx : Ctx V) : TState V E :=
  match tr.producer with
  | .lit v => .success v
  | .pfn f => f ((aget σ.values tr.target).getD default) ctx

/-- The `silentRun` loop of `composeT`: run each child's `silentRun` in
argument order against the threaded context; a successful child with an
id stores its result in the context under that id; the first Error is
returned as is; on overall success the accumulated `(child, result)`
entries are returned. -/
def composeSilentAux [Inhabited V] (σ : RState V W) :
    List (WTr V E) → Ctx V → List (WTr V E × V) →
    Ctx V × TState (List (WTr V E × V)) E
  | [], ctx, acc => (ctx, .success acc)
  | tr :: rest, ctx, acc =>
    match runTransaction σ tr ctx with
    | .error e => (ctx, .error e)
    | .success v =>
      let ctx1 := match tr.id with
        | some i => ctxSet ctx i v
        | none => ctx
      composeSilentAux σ rest ctx1 (acc ++ [(tr, v)])

/-- `silentRun()` of a composed transaction (fresh empty context). -/
def composeSilent [Inhabited V] (σ : RState V W) (ts : List (WTr V E)) :
    Ctx V × TState (List (WTr V E × V)) E :=
  composeSilentAux σ ts [] []

/-- The commit phase of a successful composed `run`: each entry's
`tr.write(value)` stores the value directly (bypassing the plain
write-and-notify path). -/
def composeWrite (σ : RState V W) (entries : List (WTr V E × V)) :
    RState V W :=
  entries.foldl (fun s e => { s with values := aset s.values e.1.target e.2 }) σ

/-- JS `Set.union`: the elements of the first set followed by the
elements of the second not already present. -/
def setUnion (a b : List Sub) : List Sub :=
  a ++ b.filter (fun s => !(a.contains s))

/-- `PriorityPool.merge(p1, p2)`: copy `p1`, then per priority of `p2`
either union into the existing pool or insert. -/
def poolMerge (p1 p2 : SparseList (List Sub)) : SparseList (List Sub) :=
  let r1 := p1.reverse.foldl (fun r e => SparseList.push r e.2 e.1) []
  p2.reverse.foldl (fun r e =>
    match SparseList.get r e.1 with
    | some cur => SparseList.push r (setUnion cur e.2) e.1
    | none => SparseList.push r e.2 e.1) r1

/-- The merged dependents of a composed transaction: the first child's
pool, merged with each later child's pool. -/
def mergedPool (T : Topology V W) (ts : List (WTr V E)) :
    SparseList (List Sub) :=
  match ts.map (fun tr => (aget T.valuePools tr.target).getD []) with
  | [] => []
  | p :: ps => ps.foldl poolMerge p

/-- `run()` of a composed transaction: `silentRun`, and only on Success
perform every child's write in original order, fire one notification
wave over the merged pools, and return the last child's result. -/
def composeRun [Inhabited V] (T : Topology V W) (σ : RState V W)
    (ts : List (WTr V E)) : TState V E × RState V W :=
  match composeSilent σ ts with
  | (_, .error e) => (.error e, σ)
  | (_, .success entries) =>
    let σ1 := composeWrite σ entries
    let stack := popOrder (mergedPool T ts)
    let σ2 := notifyLoop T (stackWeight T stack) stack σ1
    (.success (((entries.getLast?).map (fun e => e.2)).getD default), σ2)

/-! ### Cascading destruction

Modelled from the spec: the current core module (`reroi.ts`) holding
`destroy` / `isDestroyed` and the destroyed-read guard is not among the
sources — only its tests, its type declarations and its callers are —
so the destruction protocol is modelled from the specification text:

* `destroy()`: "unsubscribes from every remaining source's pool at its
  own priority, marks itself destroyed, then propagates SourceDestroyed
  to its own dependents (cascading). Must be idempotent."
* `onMessage` on SourceDestroyed: "removes `source` from the live-source
  set; self-destroys if that set becomes empty; otherwise continues with
  remaining sources."
* Invariant: "Once a Derivation/Listener loses its last live source, it
  is permanently removed from every pool it participated in" — hence a
  destroyed node's own dependents pool is torn down after propagation.
* "Reading a destroyed derivation is an error."

Priorities play no role in which destructions happen, so pools are
flattened to dependent lists.  The delivery log records every
SourceDestroyed message as `(receiver, destroyed source)`. -/

/-- A node of the destruction graph: its live-source set, its dependents
pool and its destroyed flag. -/
structure GNode where
  sources : List Nat
  dependents : List Nat
  destroyed : Bool
deriving DecidableEq

abbrev Graph := List (Nat × GNode)

/-- Destruction state: the graph plus the SourceDestroyed delivery log. -/
abbrev GState := Graph × List (Nat × Nat)

/-- Modify a node in place (handles never appear or disappear). -/
def updNode (g : Graph) (n : Nat) (f : GNode → GNode) : Graph :=
  g.map (fun e => if e.1 = n then (e.1, f e.2) else e)

/-- Modelled from the spec: `destroy()` and the SourceDestroyed handler.
`destroyGo fuel st n` destroys node `n`: if it is already destroyed this
is a no-op (idempotence); otherwise it unsubscribes `n` from every
remaining source's pool, marks `n` destroyed and tears its own wiring
down, then delivers SourceDestroyed to each of its dependents `d`, which
drops `n` from its live-source set and self-destroys when that set
becomes empty.  The fuel bounds the cascade depth; every branch of a
cascade receives the same remaining fuel. -/
def destroyGo : Nat → GState → Nat → GState
  | 0, st, _ => st
  | fuel + 1, (g, lg), n =>
    match aget g n with
    | none => (g, lg)
    | some node =>
      if node.destroyed then (g, lg)
      else
        let g1 := node.sources.foldl
          (fun gg s => updNode gg s
            (fun m => { m with dependents := m.dependents.filter (fun d => d != n) })) g
        let g2 := updNode g1 n
          (fun m => { m with destroyed := true, sources := [], dependents := [] })
        node.dependents.foldl
          (fun st1 d =>
            let lg1 := st1.2 ++ [(d, n)]
            match aget st1.1 d with
            | none => (st1.1, lg1)
            | some dn =>
              let ns := dn.sources.filter (fun s => s != n)
              let g3 := updNode st1.1 d (fun m => { m with sources := ns })
              if ns.isEmpty then destroyGo fuel (g3, lg1) d else (g3, lg1))
          (g2, lg)

/-- The SourceDestroyed delivery handler, named so that the fold inside
`destroyGo` can be reasoned about: log the delivery `(d, n)`, drop `n`
from the receiver's live-source set, and self-destroy the receiver when
that set becomes empty. -/
def sdHandle (fuel : Nat) (n : Nat) (st1 : GState) (d : Nat) : GState :=
  let lg1 := st1.2 ++ [(d, n)]
  match aget st1.1 d with
  | none => (st1.1, lg1)
  | some dn =>
    let ns := dn.sources.filter (fun s => s != n)
    let g3 := updNode st1.1 d (fun m => { m with sources := ns })
    if ns.isEmpty then destroyGo fuel (g3, lg1) d else (g3, lg1)

/-- Monotonicity relation of destruction: handles never appear or
disappear, the destroyed flag only ever becomes set, dependents pools
and live-source sets only shrink, and the delivery log only grows. -/
def GMono (st st' : GState) : Prop :=
  (∀ m, (aget st'.1 m).isSome = (aget st.1 m).isSome)
  ∧ (∀ m a b, aget st.1 m = some a → aget st'.1 m = some b →
      (a.destroyed = true → b.destroyed = true)
      ∧ (∀ d ∈ b.dependents, d ∈ a.dependents)
      ∧ (∀ s ∈ b.sources, s ∈ a.sources))
  ∧ ∃ tail, st'.2 = st.2 ++ tail

/-- The cascade invariant for claims C6 / C7: `A` is already destroyed,
`B` is intact with live-source set exactly `{A}` and dependents pool
`bdeps`, the nodes of `bdeps` are intact with live-source set exactly
`{B}`, `B` sits in no dependents pool any more, the nodes of `bdeps`
sit only in `B`'s pool, and only nodes of `bdeps` have `B` among their
sources. -/
def SibInv (A B : Nat) (bdeps : List Nat) (st : GState) : Prop :=
  (∃ na, aget st.1 A = some na ∧ na.destroyed = true)
  ∧ (∃ nb, aget st.1 B = some nb ∧ nb.destroyed = false
      ∧ nb.sources = [A] ∧ nb.dependents = bdeps)
  ∧ (∀ d ∈ bdeps, ∃ nd, aget st.1 d = some nd ∧ nd.destroyed = false
      ∧ nd.sources = [B])
  ∧ (∀ m nm, aget st.1 m = some nm → B ∉ nm.dependents)
  ∧ (∀ d ∈ bdeps, ∀ m nm, aget st.1 m = some nm → d ∈ nm.dependents → m = B)
  ∧ (∀ m nm, aget st.1 m = some nm → B ∈ nm.sources → m ∈ bdeps)

/-- Modelled from the spec: `isDestroyed`. -/
def isDestroyed (g : Graph) (n : Nat) : Bool :=
  match aget g n with
  | some node => node.destroyed
  | none => false

/-- Modelled from the spec: reading a destroyed derivation raises a
synchronous error; reading a live node succeeds. -/
def readDestroyedGuard (g : Graph) (n : Nat) : Except String Unit :=
  match aget g n with
  | none => .error "R: cannot read unknown node!"
  | some node =>
    if node.destroyed then .error "R: cannot read destroyed derivation!"
    else .ok ()

/-! ### Auxiliary predicates used by the theorems -/

/-- Membership of a subscriber in a dependents pool. -/
def poolMem (pool : SparseList (List Sub)) (s : Sub) : Prop :=
  ∃ e ∈ pool, s ∈ e.2

instance (pool : SparseList (List Sub)) (s : Sub) : Decidable (poolMem pool s) := by
  unfold poolMem; infer_instance

/-! ### Concrete systems used by closed claims and witnesses -/

/-- Claim C4 scenario, shared setup: the Value `S` (handle 0) holding 1,
the Derivation `A` (handle 1) computing `s + 1` at base priority,
already read once so that its cache is valid. -/
def glitchBase : Topology Int Bool × RState Int Bool :=
  let s0 := mkVal Topology.empty RState.empty 0 1
  let T1 := mkDerive s0.1 1 0 (fun s => s + 1) 0
  (T1, (readNode T1 s0.2 1).2)

/-- Claim C4 scenario: the listener effect observes `read(A) > read(S)`
(the callback reads the derivation 1 then the value 0 after receiving
the source value). -/
def glitchObs : List Int → Bool :=
  fun vs => decide ((vs.getD 1 0) > (vs.getD 2 0))

/-- Claim C4 scenario: the listener registered at `after(A)`. -/
def glitchAfter : Topology Int Bool × RState Int Bool :=
  let p := match priorities.after (.derv 0) with | .ok p => p | .error _ => 0
  mkListen glitchBase.1 glitchBase.2 2 [0] [1, 0] glitchObs p false false

/-- Claim C4 scenario: the same listener registered at `before(A)`. -/
def glitchBefore : Topology Int Bool × RState Int Bool :=
  let p := match priorities.before (.derv 0) with | .ok p => p | .error _ => 0
  mkListen glitchBase.1 glitchBase.2 2 [0] [1, 0] glitchObs p false false

/-- Claim C2 scenario: Values `a` (handle 0) holding "a" and `b`
(handle 1) holding "b". -/
def abSystem : Topology String Unit × RState String Unit :=
  let s0 := mkVal Topology.empty RState.empty 0 "a"
  mkVal s0.1 s0.2 1 "b"

/-- Claim C2 scenario: `compose(write(a, "A", "a"),
write(b, (_, ctx) => success(ctx.a + "B"), "b"))`. -/
def abCompose : List (WTr String String) :=
  [ ⟨0, .lit "A", some "a"⟩,
    ⟨1, .pfn (fun _ ctx => .success ((ctxGet ctx "a").getD "" ++ "B")), some "b"⟩ ]

/-- Claim C1 witness scenario: three writes where the second returns
Error; the prefix that succeeds silently, the erroring child, and the
child after it. -/
def abortPre : List (WTr String String) := [⟨0, .lit "A", some "a"⟩]

def abortTk : WTr String String := ⟨1, .pfn (fun _ _ => .error "boom"), some "b"⟩

def abortPost : List (WTr String String) := [⟨1, .lit "C", some "c"⟩]

/-- Claim C10 witness scenario: two writes that both succeed. -/
def lastT1 : WTr String String := ⟨0, .lit "A", some "a"⟩

def lastT2 : WTr String String := ⟨1, .lit "B", some "b"⟩

/-- Claim C3 witness scenario: one Value (handle 0) with six listeners,
at priorities 4, 3, 2, 1, `highest` and `lowest`. -/
def orderedSystem : Topology Int Unit × RState Int Unit :=
  let s0 := mkVal Topology.empty RState.empty 0 0
  let u : List Int → Unit := fun _ => ()
  let r1 := mkListen s0.1 s0.2 1 [0] [] u 4 false false
  let r2 := mkListen r1.1 r1.2 2 [0] [] u 3 false false
  let r3 := mkListen r2.1 r2.2 3 [0] [] u 2 false false
  let r4 := mkListen r3.1 r3.2 4 [0] [] u 1 false false
  let r5 := mkListen r4.1 r4.2 5 [0] [] u phighest false false
  mkListen r5.1 r5.2 6 [0] [] u plowest false false

/-- The dependents pool of the Value of `orderedSystem`, in ascending
priority order. -/
def orderedPool : SparseList (List Sub) :=
  [(-1000, [Sub.lstn 6]), (1, [Sub.lstn 4]), (2, [Sub.lstn 3]),
   (3, [Sub.lstn 2]), (4, [Sub.lstn 1]), (1000, [Sub.lstn 5])]

/-- Claim C5 witness scenario: a single Value (handle 0) holding 10 and
a Derivation (handle 1) computing `s + 1` over it, never read yet. -/
def cacheSystem : Topology Int Unit × RState Int Unit :=
  let s0 := mkVal Topology.empty RState.empty 0 10
  (mkDerive s0.1 1 0 (fun s => s + 1) 0, s0.2)

/-- Claim C9 witness scenario: one Value (handle 0) holding 5. -/
def onceSys : Topology Int (List Int) × RState Int (List Int) :=
  mkVal Topology.empty RState.empty 0 5

/-- Claim C9 witness scenario: listener 9 registered on the Value with
both `once` and `immidiate` set; its effect records the observed
values. -/
def onceReg : Topology Int (List Int) × RState Int (List Int) :=
  mkListen onceSys.1 onceSys.2 9 [0] [] (fun vs => vs) 0 true true

/-- Claim C6 / C7 witness scenario: a Value-like root is not needed;
derivation `A` (handle 0) has the sole dependent `B` (handle 1), whose
live-source set is exactly `{A}`; the listener `L` (handle 2) listens to
`B`. -/
def cascadeGraph : Graph :=
  [ (0, ⟨[], [1], false⟩),
    (1, ⟨[0], [2], false⟩),
    (2, ⟨[1], [], false⟩) ]

/-! ## Theorems -/

/-! ### Association list lemmas -/

theorem aget_cons (k : Nat) (v : β) (l : List (Nat × β)) (n : Nat) :
    aget ((k, v) :: l) n = if k = n then some v else aget l n := by
  by_cases h : k = n
  · subst h; simp [aget, List.find?]
  · have hb : (k == n) = false := by simpa using h
    simp [aget, List.find?, hb, h]

theorem aget_aset_same (l : List (Nat × β)) (n : Nat) (v : β) :
    aget (aset l n v) n = some v := by
  induction l with
  | nil => simp [aset, aget_cons]
  | cons e rest ih =>
    obtain ⟨k, w⟩ := e
    by_cases h : k = n
    · simp [aset, h, aget_cons]
    · simp [aset, h, aget_cons, ih]

theorem aget_aset_ne (l : List (Nat × β)) (n m : Nat) (v : β) (h : m ≠ n) :
    aget (aset l n v) m = aget l m := by
  induction l with
  | nil => simp [aset, aget_cons, Ne.symm h, aget]
  | cons e rest ih =>
    obtain ⟨k, w⟩ := e
    by_cases he : k = n
    · subst he
      simp [aset, aget_cons, Ne.symm h]
    · simp [aset, he, aget_cons]
      by_cases hm : k = m
      · simp [hm]
      · simp [hm, ih]

theorem aget_adel_same (l : List (Nat × β)) (n : Nat) :
    aget (adel l n) n = none := by
  induction l with
  | nil => rfl
  | cons e rest ih =>
    obtain ⟨k, w⟩ := e
    by_cases h : k = n
    · subst h
      simpa [adel, List.filter] using ih
    · have hb : (k != n) = true := by simpa using h
      simp only [adel, List.filter, hb] at ih ⊢
      rw [aget_cons]
      simp [h, ih]

theorem aget_adel_ne (l : List (Nat × β)) (n m : Nat) (h : m ≠ n) :
    aget (adel l n) m = aget l m := by
  induction l with
  | nil => rfl
  | cons e rest ih =>
    obtain ⟨k, w⟩ := e
    by_cases hk : k = n
    · subst hk
      simpa [adel, List.filter, aget_cons, Ne.symm h] using ih
    · have hb : (k != n) = true := by simpa using hk
      simp only [adel, List.filter, hb] at ih ⊢
      rw [aget_cons, aget_cons]
      by_cases hm : k = m
      · simp [hm]
      · simp [hm, ih]

/-! ### Claim C8: priority helpers -/

/-- Claim C8: for every finite priority strictly below `highest`,
`before(p)` returns `p + 1`, and for every finite priority strictly
above `lowest`, `after(p)` returns `p - 1`, accepting either a raw
priority or a Derivation and pivoting on its current priority; asking
`before` to go at or past `highest`, or `after` to go at or past
`lowest`, raises a synchronous error. -/
theorem claim_C8 (a : PriorityArg) :
    (a.pivot < phighest → priorities.before a = .ok (a.pivot + 1))
    ∧ (phighest ≤ a.pivot → ∃ msg, priorities.before a = .error msg)
    ∧ (plowest < a.pivot → priorities.after a = .ok (a.pivot - 1))
    ∧ (a.pivot ≤ plowest → ∃ msg, priorities.after a = .error msg) := by
  refine ⟨fun h => ?_, fun h => ?_, fun h => ?_, fun h => ?_⟩
  · simp [priorities.before, not_le.mpr h]
  · exact ⟨"Fluid: Cannot use before with priority bigger then the highest!",
      by simp [priorities.before, h]⟩
  · simp [priorities.after, not_le.mpr h]
  · exact ⟨"Fluid: Cannot use after with priority lower then the lowest!",
      by simp [priorities.after, h]⟩

/-- Witness for C8: raw priority 0 and a derivation pivot at the
sentinel boundaries. -/
theorem claim_C8_witness :
    ((PriorityArg.raw 0).pivot < phighest
      ∧ priorities.before (.raw 0) = .ok 1
      ∧ plowest < (PriorityArg.raw 0).pivot
      ∧ priorities.after (.raw 0) = .ok (-1))
    ∧ (phighest ≤ (PriorityArg.derv 1000).pivot
      ∧ ∃ msg, priorities.before (.derv 1000) = .error msg) := by
  have h0 := claim_C8 (.raw 0)
  have h1 := claim_C8 (.derv 1000)
  refine ⟨⟨by decide, ?_, by decide, ?_⟩, by decide, h1.2.1 (by decide)⟩
  · simpa using h0.1 (by decide)
  · simpa using h0.2.2.1 (by decide)

/-! ### Claim C4: the priority-governed glitch example -/

/-- Claim C4: with Value S holding 1 and Derivation A = derive(S, s =>
s + 1) read once so its cache is valid, a Listener on S computing
`read(A) > read(S)` observes `true` after writing 2 to S when it was
registered at priority `after(A)`, and observes `false` (the stale
cached A) when registered at priority `before(A)`. -/
theorem claim_C4 :
    (write glitchAfter.1 glitchAfter.2 0 2).log = [(2, true)]
    ∧ (write glitchBefore.1 glitchBefore.2 0 2).log = [(2, false)] := by
  decide

/-! ### Claim C2: context threading in a composed transaction -/

/-- Claim C2: `compose(write(a, "A", "a"), write(b, (_, ctx) =>
success(ctx.a + "B"), "b")).run()` returns Success and afterwards
reading `b` yields "AB": the first child's result is stored in the
shared context under its id and is visible to the later child's
producer. -/
theorem claim_C2 :
    (composeRun abSystem.1 abSystem.2 abCompose).1 = .success "AB"
    ∧ aget (composeRun abSystem.1 abSystem.2 abCompose).2.values 1
        = some "AB" := by
  decide

/-! ### Claim C5: lazy caching of derivations -/

/-- Claim C5: for a Derivation with an empty cache whose sources receive
no write, reading it N ≥ 1 times invokes its compute function exactly
once — the first read computes and fills the cache, every later read
returns the cached value without touching the state — and an Update
notification merely empties the cache without recomputing. -/
theorem claim_C5 [Inhabited V] (T : Topology V W) (σ : RState V W)
    (d : Nat) (D : Deriv V)
    (hd : aget T.derivs d = some D)
    (hval : aget σ.values d = none)
    (hcache : aget σ.caches d = none)
    (N : Nat) (hN : 1 ≤ N) :
    ((aget (readNode T σ d).2.counts d).getD 0 = (aget σ.counts d).getD 0 + 1
      ∧ aget (readNode T σ d).2.caches d = some (readNode T σ d).1)
    ∧ readNode T (readNode T σ d).2 d = ((readNode T σ d).1, (readNode T σ d).2)
    ∧ (aget ((fun s => (readNode T s d).2)^[N] σ).counts d).getD 0
        = (aget σ.counts d).getD 0 + 1
    ∧ aget (invalidate (readNode T σ d).2 d).caches d = none
    ∧ (invalidate (readNode T σ d).2 d).counts = (readNode T σ d).2.counts := by
  have hread : readNode T σ d
      = (D.fn ((aget σ.values D.source).getD default),
         { σ with
            caches := aset σ.caches d (D.fn ((aget σ.values D.source).getD default)),
            counts := aset σ.counts d ((aget σ.counts d).getD 0 + 1) }) := by
    unfold readNode
    rw [hval, hd, hcache]
  have hc2 : readNode T
      { σ with
          caches := aset σ.caches d (D.fn ((aget σ.values D.source).getD default)),
          counts := aset σ.counts d ((aget σ.counts d).getD 0 + 1) } d
      = (D.fn ((aget σ.values D.source).getD default),
         { σ with
            caches := aset σ.caches d (D.fn ((aget σ.values D.source).getD default)),
            counts := aset σ.counts d ((aget σ.counts d).getD 0 + 1) }) := by
    unfold readNode
    dsimp only
    rw [hval, hd, aget_aset_same]
  have hcached : readNode T (readNode T σ d).2 d
      = ((readNode T σ d).1, (readNode T σ d).2) := by
    rw [hread]
    dsimp only
    exact hc2
  refine ⟨⟨?_, ?_⟩, hcached, ?_, ?_, ?_⟩
  · rw [hread]; simp [aget_aset_same]
  · rw [hread]; simp [aget_aset_same]
  · obtain ⟨k, rfl⟩ : ∃ k, N = k + 1 := ⟨N - 1, by omega⟩
    have hfix : (fun s => (readNode T s d).2) ((readNode T σ d).2)
        = (readNode T σ d).2 := by
      show (readNode T (readNode T σ d).2 d).2 = (readNode T σ d).2
      rw [hcached]
    rw [Function.iterate_succ_apply, Function.iterate_fixed hfix k]
    rw [hread]; simp [aget_aset_same]
  · simp [invalidate, aget_adel_same]
  · rfl

/-- Witness for C5: a concrete derivation over a single Value, read
three times. -/
theorem claim_C5_witness :
    (aget cacheSystem.1.derivs 1 = some ⟨0, fun s => s + 1, 0⟩
      ∧ aget cacheSystem.2.values 1 = none
      ∧ aget cacheSystem.2.caches 1 = none
      ∧ 1 ≤ 3)
    ∧ (aget ((fun s => (readNode cacheSystem.1 s 1).2)^[3] cacheSystem.2).counts 1).getD 0
        = (aget cacheSystem.2.counts 1).getD 0 + 1 :=
  ⟨⟨rfl, rfl, rfl, by decide⟩,
    (claim_C5 cacheSystem.1 cacheSystem.2 1 ⟨0, fun s => s + 1, 0⟩
      rfl rfl rfl 3 (by decide)).2.2.1⟩

/-! ### Claims C1 and C10: the composed-transaction run protocol -/

theorem composeSilentAux_append [Inhabited V] (σ : RState V W)
    (pre rest : List (WTr V E)) (ctx : Ctx V) (acc : List (WTr V E × V))
    (c : Ctx V) (ent : List (WTr V E × V))
    (h : composeSilentAux σ pre ctx acc = (c, .success ent)) :
    composeSilentAux σ (pre ++ rest) ctx acc = composeSilentAux σ rest c ent := by
  induction pre generalizing ctx acc with
  | nil =>
    simp only [composeSilentAux] at h
    obtain ⟨rfl, rfl⟩ : ctx = c ∧ acc = ent := by
      refine ⟨congrArg Prod.fst h, ?_⟩
      have := congrArg Prod.snd h
      simpa using this
    simp
  | cons tr pre ih =>
    simp only [composeSilentAux, List.cons_append] at h ⊢
    cases htr : runTransaction σ tr ctx with
    | error e => rw [htr] at h; simp at h
    | success v =>
      rw [htr] at h
      simp only at h ⊢
      exact ih _ _ h

theorem composeSilentAux_map_fst [Inhabited V] (σ : RState V W)
    (ts : List (WTr V E)) (ctx : Ctx V) (acc : List (WTr V E × V))
    (c : Ctx V) (ent : List (WTr V E × V))
    (h : composeSilentAux σ ts ctx acc = (c, .success ent)) :
    ent.map Prod.fst = acc.map Prod.fst ++ ts := by
  induction ts generalizing ctx acc with
  | nil =>
    simp only [composeSilentAux] at h
    have : acc = ent := by
      have := congrArg Prod.snd h
      simpa using this
    simp [← this]
  | cons tr ts ih =>
    simp only [composeSilentAux] at h
    cases htr : runTransaction σ tr ctx with
    | error e => rw [htr] at h; simp at h
    | success v =>
      rw [htr] at h
      simp only at h
      have := ih _ _ h
      simpa using this

theorem getLast?_of_map_fst (ent : List (α × γ)) (ts0 : List α) (a : α)
    (h : ent.map Prod.fst = ts0 ++ [a]) :
    ∃ v, ent.getLast? = some (a, v) := by
  induction ent generalizing ts0 with
  | nil => simp at h
  | cons e rest ih =>
    cases ts0 with
    | nil =>
      simp at h
      obtain ⟨h1, h2⟩ := h
      have : rest = [] := by simpa using congrArg List.length h2
      subst this
      exact ⟨e.2, by simp [← h1]⟩
    | cons b ts0 =>
      simp at h
      obtain ⟨h1, h2⟩ := h
      obtain ⟨v, hv⟩ := ih ts0 h2
      refine ⟨v, ?_⟩
      cases rest with
      | nil => simp at h2
      | cons r rs => rw [List.getLast?_cons_cons]; exact hv

/-- Claim C1: in a composed transaction, if some child's producer
returns Error during run() — all children before it having succeeded in
the silent pass — then no target Value is written, no dependent listener
or derivation is notified (the state is returned untouched), and the
composite result of run() is that first Error. -/
theorem claim_C1 [Inhabited V] (T : Topology V W) (σ : RState V W)
    (pre post : List (WTr V E)) (tk : WTr V E)
    (c : Ctx V) (ent : List (WTr V E × V)) (e : E)
    (hpre : composeSilentAux σ pre [] [] = (c, .success ent))
    (herr : runTransaction σ tk c = .error e) :
    composeRun T σ (pre ++ tk :: post) = (.error e, σ) := by
  have hsil : composeSilent σ (pre ++ tk :: post) = (c, .error e) := by
    unfold composeSilent
    rw [composeSilentAux_append σ pre (tk :: post) [] [] c ent hpre]
    simp [composeSilentAux, herr]
  unfold composeRun
  rw [hsil]

/-- Witness for C1: composing three writes where the second returns
Error leaves the system state untouched and returns that Error. -/
theorem claim_C1_witness :
    (composeSilentAux abSystem.2 abortPre [] []
        = ([("a", "A")], .success [(⟨0, .lit "A", some "a"⟩, "A")])
      ∧ runTransaction abSystem.2 abortTk [("a", "A")] = .error "boom")
    ∧ composeRun abSystem.1 abSystem.2 (abortPre ++ abortTk :: abortPost)
        = (.error "boom", abSystem.2) :=
  ⟨⟨rfl, rfl⟩,
    claim_C1 abSystem.1 abSystem.2 abortPre abortPost abortTk
      [("a", "A")] [(⟨0, .lit "A", some "a"⟩, "A")] "boom" rfl rfl⟩

/-- Claim C10: when every child of a composed transaction succeeds, the
composite run() returns a Success carrying the result value of the last
child alone (the silent-pass entry of the final child), not a collection
of all children's results. -/
theorem claim_C10 [Inhabited V] (T : Topology V W) (σ : RState V W)
    (ts0 : List (WTr V E)) (tN : WTr V E)
    (c : Ctx V) (ent : List (WTr V E × V))
    (hsil : composeSilent σ (ts0 ++ [tN]) = (c, .success ent)) :
    ∃ v, ent.getLast? = some (tN, v)
      ∧ (composeRun T σ (ts0 ++ [tN])).1 = .success v := by
  have hfst : ent.map Prod.fst = ts0 ++ [tN] := by
    simpa using composeSilentAux_map_fst σ (ts0 ++ [tN]) [] [] c ent hsil
  obtain ⟨v, hv⟩ := getLast?_of_map_fst ent ts0 tN hfst
  refine ⟨v, hv, ?_⟩
  unfold composeRun
  rw [hsil]
  simp [hv]

/-- Witness for C10: composing two successful writes returns the second
child's value "B". -/
theorem claim_C10_witness :
    composeSilent abSystem.2 ([lastT1] ++ [lastT2])
        = ([("a", "A"), ("b", "B")], .success [(lastT1, "A"), (lastT2, "B")])
    ∧ ∃ v, [(lastT1, "A"), (lastT2, "B")].getLast? = some (lastT2, v)
        ∧ (composeRun abSystem.1 abSystem.2 ([lastT1] ++ [lastT2])).1 = .success v :=
  ⟨rfl,
    claim_C10 abSystem.1 abSystem.2 [lastT1] lastT2
      [("a", "A"), ("b", "B")] [(lastT1, "A"), (lastT2, "B")] rfl⟩

/-! ### Claim C3: priority-ordered notification -/

theorem cat_append (a b : List (List α)) : cat (a ++ b) = cat a ++ cat b := by
  induction a with
  | nil => rfl
  | cons l ls ih => simp [cat, ih]

theorem mem_cat {x : α} (ls : List (List α)) :
    x ∈ cat ls ↔ ∃ l ∈ ls, x ∈ l := by
  induction ls with
  | nil => simp [cat]
  | cons l ls ih => simp [cat, ih]

theorem fillStack_eq (pool : SparseList (List Sub)) :
    fillStack pool = cat (pool.map (fun e => e.2.reverse)) := by
  have haux : ∀ (p : SparseList (List Sub)) (acc : List Sub),
      p.foldl (fun st e => st ++ e.2.reverse) acc
        = acc ++ cat (p.map (fun e => e.2.reverse)) := by
    intro p
    induction p with
    | nil => intro acc; simp [cat]
    | cons e rest ih => intro acc; simp [List.foldl, ih, cat]
  simpa [fillStack] using haux pool []

theorem reverse_cat (ls : List (List α)) :
    (cat ls).reverse = cat (ls.reverse.map List.reverse) := by
  induction ls with
  | nil => rfl
  | cons l rest ih => simp [cat, ih, cat_append]

theorem popOrder_eq (pool : SparseList (List Sub)) :
    popOrder pool = cat (pool.reverse.map (fun e => e.2)) := by
  rw [popOrder, fillStack_eq]
  induction pool with
  | nil => rfl
  | cons e rest ih =>
    simp [cat, List.reverse_append, cat_append, ih, List.map_append]

theorem mem_popOrder {s : Sub} (pool : SparseList (List Sub))
    (h : s ∈ popOrder pool) : ∃ e ∈ pool, s ∈ e.2 := by
  rw [popOrder_eq] at h
  rw [mem_cat] at h
  obtain ⟨l, hl, hs⟩ := h
  simp only [List.mem_map, List.mem_reverse] at hl
  obtain ⟨e, he, rfl⟩ := hl
  exact ⟨e, he, hs⟩

theorem stackWeight_lstn (T : Topology V W) (stack : List Sub)
    (h : ∀ s ∈ stack, ∃ l, s = Sub.lstn l) :
    stackWeight T stack = stack.length := by
  induction stack with
  | nil => rfl
  | cons s rest ih =>
    obtain ⟨l, rfl⟩ := h s (by simp)
    have ih2 := ih (fun x hx => h x (by simp [hx]))
    simp only [stackWeight, subWeight, List.map_cons, List.sum_cons,
      List.length_cons] at ih2 ⊢
    omega

theorem readNode_log [Inhabited V] (T : Topology V W) (σ : RState V W)
    (n : Nat) : (readNode T σ n).2.log = σ.log := by
  unfold readNode
  cases aget σ.values n with
  | some v => rfl
  | none =>
    cases aget T.derivs n with
    | some d =>
      cases aget σ.caches n with
      | some c => rfl
      | none => rfl
    | none => rfl

theorem readMany_log [Inhabited V] (T : Topology V W) (σ : RState V W)
    (ns : List Nat) : (readMany T σ ns).2.log = σ.log := by
  induction ns generalizing σ with
  | nil => rfl
  | cons n ns ih =>
    simp only [readMany]
    rw [ih]
    exact readNode_log T σ n

theorem runListener_log [Inhabited V] (T : Topology V W) (σ : RState V W)
    (l : Nat) :
    (runListener T σ l).log
      = σ.log ++ (match aget T.listeners l with
          | some L => [(l, L.f (readMany T σ (L.sources ++ L.extraReads)).1)]
          | none => []) := by
  unfold runListener
  cases hL : aget T.listeners l with
  | none => simp
  | some L => simp [readMany_log]

/-- The tags a listener-only stack leaves in the log: every popped
listener with a record fires once, in pop order. -/
theorem notifyLoop_log_lstn [Inhabited V] (T : Topology V W)
    (stack : List Sub) (fuel : Nat) (σ : RState V W)
    (hl : ∀ s ∈ stack, ∃ l, s = Sub.lstn l)
    (hf : stack.length ≤ fuel) :
    (notifyLoop T fuel stack σ).log.map Prod.fst
      = σ.log.map Prod.fst
        ++ stack.filterMap (fun s => match s with
            | .lstn l => if (aget T.listeners l).isSome then some l else none
            | .derv _ => none) := by
  induction stack generalizing fuel σ with
  | nil => cases fuel <;> simp [notifyLoop]
  | cons s rest ih =>
    obtain ⟨l, rfl⟩ := hl s (by simp)
    cases fuel with
    | zero => simp at hf
    | succ f =>
      have hrest : rest.length ≤ f := by simpa using hf
      simp only [notifyLoop]
      rw [ih f (runListener T σ l)
            (fun x hx => hl x (List.mem_cons_of_mem _ hx)) hrest]
      rw [runListener_log]
      cases hL : aget T.listeners l with
      | none => simp [List.filterMap_cons, hL]
      | some L => simp [List.filterMap_cons, hL]

/-- Splitting a sorted pool around two of its priorities. -/
theorem sorted_split (pool : SparseList (List Sub))
    (hs : SparseList.Sorted pool) {p q : Int} {lp lq : List Sub}
    (hp : (p, lp) ∈ pool) (hq : (q, lq) ∈ pool) (hqp : q < p) :
    ∃ s t u, pool = s ++ (q, lq) :: t ++ (p, lp) :: u := by
  obtain ⟨a, b, hab⟩ := List.append_of_mem hp
  subst hab
  rcases List.mem_append.mp hq with hqa | hqb
  · obtain ⟨s, t, hst⟩ := List.append_of_mem hqa
    subst hst
    exact ⟨s, t, b, by simp⟩
  · exfalso
    rw [SparseList.Sorted, List.pairwise_append] at hs
    rcases List.mem_cons.mp hqb with heq | hqb2
    · have : q = p := congrArg Prod.fst heq
      omega
    · have hpc := hs.2.1
      rw [List.pairwise_cons] at hpc
      have hlt := hpc.1 _ hqb2
      simp only at hlt
      omega

theorem filterMap_cons_some (F : Sub → Option Nat) (s : Sub) (l : List Sub)
    (x : Nat) (h : F s = some x) :
    (s :: l).filterMap F = x :: l.filterMap F := by
  simp [List.filterMap_cons, h]

/-- Claim C3: a single write to a Value whose dependents pool holds only
listeners invokes their handlers in strictly descending priority order:
any listener at a higher priority fires before any listener at a lower
priority; with the sentinels being the extreme priorities, `highest`
fires before any finite priority and `lowest` after. -/
theorem claim_C3 [Inhabited V] (T : Topology V W) (σ : RState V W)
    (v : Nat) (pool : SparseList (List Sub)) (w : V)
    (hpool : aget T.valuePools v = some pool)
    (hs : SparseList.Sorted pool)
    (hall : ∀ e ∈ pool, ∀ s ∈ e.2, ∃ l, s = Sub.lstn l)
    {p q : Int} {lp lq : List Sub} {x y : Nat}
    (hp : (p, lp) ∈ pool) (hq : (q, lq) ∈ pool) (hqp : q < p)
    (hx : Sub.lstn x ∈ lp) (hy : Sub.lstn y ∈ lq)
    (hxs : (aget T.listeners x).isSome) (hys : (aget T.listeners y).isSome)
    (hlog : σ.log = []) :
    ∃ b m a, (write T σ v w).log.map Prod.fst = b ++ x :: (m ++ y :: a) := by
  obtain ⟨s, t, u, hsplit⟩ := sorted_split pool hs hp hq hqp
  have hstack : ∀ s' ∈ popOrder pool, ∃ l, s' = Sub.lstn l := by
    intro s' hs'
    obtain ⟨e, he, hse⟩ := mem_popOrder pool hs'
    exact hall e he s' hse
  unfold write notifyDeps
  rw [hpool]
  simp only [Option.getD_some]
  rw [notifyLoop_log_lstn T (popOrder pool) _ _ hstack
        (le_of_eq (stackWeight_lstn T _ hstack).symm)]
  simp only [hlog, List.map_nil, List.nil_append]
  obtain ⟨lp1, lp2, hlp⟩ := List.append_of_mem hx
  obtain ⟨lq1, lq2, hlq⟩ := List.append_of_mem hy
  subst hsplit hlp hlq
  set F : Sub → Option Nat := fun s' => match s' with
    | Sub.lstn l => if (aget T.listeners l).isSome then some l else none
    | Sub.derv _ => none with hF
  have hFx : F (Sub.lstn x) = some x := by rw [hF]; simp [hxs]
  have hFy : F (Sub.lstn y) = some y := by rw [hF]; simp [hys]
  rw [popOrder_eq]
  simp only [List.reverse_append, List.reverse_cons, List.map_append,
    List.map_cons, List.map_nil, cat_append, cat, List.append_nil,
    List.nil_append, List.filterMap_append]
  rw [filterMap_cons_some F _ lp2 x hFx, filterMap_cons_some F _ lq2 y hFy]
  refine ⟨cat (u.reverse.map (fun e => e.2)) |>.filterMap F
            |>.append (lp1.filterMap F),
          lp2.filterMap F ++ (cat (t.reverse.map (fun e => e.2))).filterMap F
            ++ lq1.filterMap F,
          lq2.filterMap F ++ (cat (s.reverse.map (fun e => e.2))).filterMap F,
          ?_⟩
  simp [List.append_assoc]

/-- Witness for C3: six listeners at priorities 4, 3, 2, 1, `highest`
and `lowest` on one Value; the `highest` listener (handle 5) fires
before the priority-4 listener (handle 1). -/
theorem claim_C3_witness :
    (aget orderedSystem.1.valuePools 0 = some orderedPool
      ∧ SparseList.Sorted orderedPool
      ∧ ((1000, [Sub.lstn 5]) ∈ orderedPool ∧ (4, [Sub.lstn 1]) ∈ orderedPool
          ∧ (4 : Int) < 1000)
      ∧ (aget orderedSystem.1.listeners 5).isSome
      ∧ (aget orderedSystem.1.listeners 1).isSome
      ∧ orderedSystem.2.log = [])
    ∧ ∃ b m a, (write orderedSystem.1 orderedSystem.2 0 7).log.map Prod.fst
        = b ++ 5 :: (m ++ 1 :: a) :=
  ⟨⟨by decide, by decide, ⟨by decide, by decide, by decide⟩,
     by decide, by decide, by decide⟩,
   @claim_C3 Int Unit _ orderedSystem.1 orderedSystem.2 0 orderedPool 7
     (by decide) (by decide)
     (by
       intro e he s' hs'
       have he' : e ∈ ([(-1000, [Sub.lstn 6]), (1, [Sub.lstn 4]),
           (2, [Sub.lstn 3]), (3, [Sub.lstn 2]), (4, [Sub.lstn 1]),
           (1000, [Sub.lstn 5])] : SparseList (List Sub)) := he
       simp only [List.mem_cons, List.not_mem_nil, or_false] at he'
       rcases he' with rfl | rfl | rfl | rfl | rfl | rfl <;>
         · simp only [List.mem_singleton] at hs'
           exact ⟨_, hs'⟩)
     1000 4 [Sub.lstn 5] [Sub.lstn 1] 5 1
     (by decide) (by decide) (by decide) (by decide) (by decide)
     (by decide) (by decide) (by decide)⟩

/-! ### Claim C9: a listener with both `once` and `immidiate` -/

theorem SparseList.get_cons (j : Int) (w : α) (l : SparseList α) (i : Int) :
    SparseList.get ((j, w) :: l) i = if j = i then some w else SparseList.get l i := by
  by_cases h : j = i
  · subst h; simp [SparseList.get, List.find?]
  · have hb : (j == i) = false := by simpa using h
    simp [SparseList.get, List.find?, hb, h]

theorem SparseList.get_push_same (l : SparseList α) (v : α) (i : Int) :
    SparseList.get (SparseList.push l v i) i = some v := by
  induction l with
  | nil => simp [SparseList.push, SparseList.get_cons]
  | cons e rest ih =>
    obtain ⟨j, w⟩ := e
    by_cases h1 : i < j
    · simp [SparseList.push, h1, SparseList.get_cons]
    · by_cases h2 : i = j
      · simp [SparseList.push, h1, h2, SparseList.get_cons]
      · simp only [SparseList.push, if_neg h1, if_neg h2]
        rw [SparseList.get_cons]
        have : ¬ j = i := fun hh => h2 hh.symm
        simp [this, ih]

theorem SparseList.push_push_same (l : SparseList α) (v v' : α) (i : Int) :
    SparseList.push (SparseList.push l v i) v' i = SparseList.push l v' i := by
  induction l with
  | nil => simp [SparseList.push]
  | cons e rest ih =>
    obtain ⟨j, w⟩ := e
    by_cases h1 : i < j
    · simp [SparseList.push, h1]
    · by_cases h2 : i = j
      · simp [SparseList.push, h1, h2]
      · simp [SparseList.push, h1, h2, ih]

theorem poolMem_cons (e : Int × List Sub) (rest : SparseList (List Sub))
    (s : Sub) : poolMem (e :: rest) s ↔ s ∈ e.2 ∨ poolMem rest s := by
  simp [poolMem]

theorem poolMem_push (pool : SparseList (List Sub)) (v : List Sub) (i : Int)
    (s : Sub) (h : poolMem (SparseList.push pool v i) s) :
    s ∈ v ∨ poolMem pool s := by
  induction pool with
  | nil =>
    simp [SparseList.push, poolMem] at h
    exact Or.inl h
  | cons e rest ih =>
    obtain ⟨j, w⟩ := e
    by_cases h1 : i < j
    · simp only [SparseList.push, if_pos h1] at h
      rw [poolMem_cons] at h
      rcases h with h | h
      · exact Or.inl h
      · exact Or.inr h
    · by_cases h2 : i = j
      · simp only [SparseList.push, if_neg h1, if_pos h2] at h
        rw [poolMem_cons] at h
        rcases h with h | h
        · exact Or.inl h
        · exact Or.inr ((poolMem_cons _ _ _).mpr (Or.inr h))
      · simp only [SparseList.push, if_neg h1, if_neg h2] at h
        rw [poolMem_cons] at h
        rcases h with h | h
        · exact Or.inr ((poolMem_cons _ _ _).mpr (Or.inl h))
        · rcases ih h with h' | h'
          · exact Or.inl h'
          · exact Or.inr ((poolMem_cons _ _ _).mpr (Or.inr h'))

theorem poolMem_add_remove (pool : SparseList (List Sub)) (p : Int) (s : Sub)
    (hfree : ¬ poolMem pool s) :
    ¬ poolMem (poolRemove (poolAdd pool p s) p s) s := by
  intro hmem
  unfold poolRemove at hmem
  rw [show SparseList.get (poolAdd pool p s) p
        = some (let cur := (SparseList.get pool p).getD [];
                if s ∈ cur then cur else cur ++ [s])
      from SparseList.get_push_same _ _ _] at hmem
  unfold poolAdd at hmem
  rw [SparseList.push_push_same] at hmem
  rcases poolMem_push _ _ _ _ hmem with h | h
  · simp only [Option.getD_some, List.mem_filter] at h
    exact absurd h.2 (by simp)
  · exact hfree h

theorem foldl_updPool_vp_ne (srcs : List Nat) (t : Topology V W)
    (g : SparseList (List Sub) → SparseList (List Sub)) (n : Nat)
    (hn : n ∉ srcs) :
    aget ((srcs.foldl (fun tt s => updPool tt s g) t).valuePools) n
      = aget t.valuePools n := by
  induction srcs generalizing t with
  | nil => rfl
  | cons s rest ih =>
    have hns : n ≠ s := fun hh => hn (by simp [hh])
    have hnr : n ∉ rest := fun hh => hn (by simp [hh])
    simp only [List.foldl_cons]
    rw [ih _ hnr]
    exact aget_aset_ne _ _ _ _ hns

theorem foldl_updPool_vp_mem (srcs : List Nat) (t : Topology V W)
    (g : SparseList (List Sub) → SparseList (List Sub)) (n : Nat)
    (hn : n ∈ srcs) (hnd : srcs.Nodup) :
    aget ((srcs.foldl (fun tt s => updPool tt s g) t).valuePools) n
      = some (g ((aget t.valuePools n).getD [])) := by
  induction srcs generalizing t with
  | nil => simp at hn
  | cons s rest ih =>
    rw [List.nodup_cons] at hnd
    simp only [List.foldl_cons]
    rcases List.mem_cons.mp hn with rfl | hmem
    · rw [foldl_updPool_vp_ne rest _ g n hnd.1]
      exact aget_aset_same _ _ _
    · have hns : n ≠ s := fun hh => hnd.1 (hh ▸ hmem)
      rw [ih _ hmem hnd.2]
      rw [show (updPool t s g).valuePools
            = aset t.valuePools s (g ((aget t.valuePools s).getD [])) from rfl]
      rw [aget_aset_ne _ _ _ _ hns]

theorem foldl_updPool_fields (srcs : List Nat) (t : Topology V W)
    (g : SparseList (List Sub) → SparseList (List Sub)) :
    (srcs.foldl (fun tt s => updPool tt s g) t).listeners = t.listeners
    ∧ (srcs.foldl (fun tt s => updPool tt s g) t).derivPools = t.derivPools
    ∧ (srcs.foldl (fun tt s => updPool tt s g) t).derivs = t.derivs := by
  induction srcs generalizing t with
  | nil => exact ⟨rfl, rfl, rfl⟩
  | cons s rest ih => simpa using ih (updPool t s g)

theorem readMany_values [Inhabited V] (T : Topology V W) (σ : RState V W)
    (ns : List Nat)
    (h : ∀ s ∈ ns, (aget σ.values s).isSome) :
    readMany T σ ns = (ns.map (fun s => (aget σ.values s).getD default), σ) := by
  induction ns with
  | nil => rfl
  | cons n ns ih =>
    obtain ⟨v, hv⟩ := Option.isSome_iff_exists.mp (h n (by simp))
    have hrn : readNode T σ n = (v, σ) := by unfold readNode; rw [hv]
    simp only [readMany, hrn]
    rw [ih (fun s hs => h s (by simp [hs]))]
    simp [hv]

theorem runListener_countP_ne [Inhabited V] (T : Topology V W)
    (σ : RState V W) (l' l : Nat) (hne : l' ≠ l) :
    ((runListener T σ l').log.countP (fun e => e.1 == l))
      = σ.log.countP (fun e => e.1 == l) := by
  rw [runListener_log]
  cases hL : aget T.listeners l' with
  | none => simp
  | some L => simp [List.countP_append, List.countP_cons, hne]

theorem notifyLoop_countP [Inhabited V] (T : Topology V W) (l : Nat)
    (hd : ∀ d, l ∉ derivDependents T d) :
    ∀ fuel stack (σ : RState V W), Sub.lstn l ∉ stack →
    ((notifyLoop T fuel stack σ).log.countP (fun e => e.1 == l))
      = σ.log.countP (fun e => e.1 == l) := by
  intro fuel
  induction fuel with
  | zero => intro stack σ _; rfl
  | succ f ih =>
    intro stack σ hst
    cases stack with
    | nil => rfl
    | cons s rest =>
      cases s with
      | lstn l' =>
        have hne : l' ≠ l := by
          intro hh; subst hh; exact hst (by simp)
        simp only [notifyLoop]
        rw [ih rest _ (fun hh => hst (by simp [hh]))]
        exact runListener_countP_ne T σ l' l hne
      | derv d =>
        simp only [notifyLoop]
        rw [ih _ _ ?_]
        · rfl
        · intro hh
          rcases List.mem_append.mp hh with h1 | h1
          · obtain ⟨l2, hl2, heq⟩ := List.mem_map.mp h1
            cases heq
            exact hd d hl2
          · exact hst (by simp [h1])

theorem write_countP [Inhabited V] (T : Topology V W) (σ : RState V W)
    (n : Nat) (v : V) (l : Nat)
    (hv : ∀ m pool, aget T.valuePools m = some pool → ¬ poolMem pool (.lstn l))
    (hd : ∀ d, l ∉ derivDependents T d) :
    (write T σ n v).log.countP (fun e => e.1 == l)
      = σ.log.countP (fun e => e.1 == l) := by
  unfold write notifyDeps
  have hnotin : Sub.lstn l ∉ popOrder ((aget T.valuePools n).getD []) := by
    intro hmem
    obtain ⟨e, he, hse⟩ := mem_popOrder _ hmem
    cases hpool : aget T.valuePools n with
    | none => rw [hpool] at he; simp at he
    | some pool =>
      rw [hpool] at he
      exact hv n pool hpool ⟨e, he, hse⟩
  rw [notifyLoop_countP T l hd _ _ _ hnotin]

theorem derivDependents_congr (T1 T2 : Topology V W)
    (h : T1.derivPools = T2.derivPools) :
    derivDependents T1 = derivDependents T2 := by
  unfold derivDependents
  rw [h]

/-- Claim C9: a listener created with both `once` and `immidiate` fires
its effect exactly once, synchronously at registration with the sources'
current values, and is unsubscribed from every pool during that same
registration call, so no subsequent sequence of writes ever invokes the
effect again. -/
theorem claim_C9 [Inhabited V] (T : Topology V W) (σ : RState V W)
    (l : Nat) (srcs : List Nat) (f : List V → W) (prio : Int)
    (hnd : srcs.Nodup)
    (hvals : ∀ s ∈ srcs, (aget σ.values s).isSome)
    (hfreshV : ∀ n pool, aget T.valuePools n = some pool
      → ¬ poolMem pool (.lstn l))
    (hfreshD : ∀ d, l ∉ derivDependents T d) :
    (mkListen T σ l srcs [] f prio true true).2.log
        = σ.log ++ [(l, f (srcs.map (fun s => (aget σ.values s).getD default)))]
    ∧ (∀ n pool,
        aget (mkListen T σ l srcs [] f prio true true).1.valuePools n = some pool
          → ¬ poolMem pool (.lstn l))
    ∧ ∀ ws : List (Nat × V),
        ((ws.foldl
            (fun s e => write (mkListen T σ l srcs [] f prio true true).1 s e.1 e.2)
            (mkListen T σ l srcs [] f prio true true).2).log.countP
          (fun e => e.1 == l))
          = σ.log.countP (fun e => e.1 == l) + 1 := by
  set L : Listener V W := ⟨srcs, [], f, prio, true⟩ with hLdef
  set T1 := srcs.foldl
      (fun t s => updPool t s (fun pool => poolAdd pool prio (Sub.lstn l)))
      { T with listeners := aset T.listeners l L } with hT1
  have hTS : mkListen T σ l srcs [] f prio true true
      = (unsubL T1 l srcs prio, runListener T1 σ l) := rfl
  have hT1l : aget T1.listeners l = some L := by
    rw [hT1, (foldl_updPool_fields srcs _ _).1]
    exact aget_aset_same _ _ _
  have hrun : runListener T1 σ l
      = { σ with log := σ.log
            ++ [(l, f (srcs.map (fun s => (aget σ.values s).getD default)))] } := by
    unfold runListener
    rw [hT1l]
    dsimp only
    rw [List.append_nil]
    rw [readMany_values T1 σ srcs hvals]
  have hlog1 : (mkListen T σ l srcs [] f prio true true).2.log
      = σ.log ++ [(l, f (srcs.map (fun s => (aget σ.values s).getD default)))] := by
    rw [hTS]
    rw [show (unsubL T1 l srcs prio, runListener T1 σ l).2
          = runListener T1 σ l from rfl]
    rw [hrun]
  have hC2 : ∀ n pool,
      aget (mkListen T σ l srcs [] f prio true true).1.valuePools n = some pool
        → ¬ poolMem pool (.lstn l) := by
    intro n pool hpool
    rw [hTS] at hpool
    rw [show (unsubL T1 l srcs prio, runListener T1 σ l).1
          = unsubL T1 l srcs prio from rfl] at hpool
    unfold unsubL at hpool
    by_cases hn : n ∈ srcs
    · rw [foldl_updPool_vp_mem srcs _ _ n hn hnd] at hpool
      rw [hT1, foldl_updPool_vp_mem srcs _ _ n hn hnd] at hpool
      rw [show ({ T with listeners := aset T.listeners l L } : Topology V W).valuePools
            = T.valuePools from rfl] at hpool
      have horig : ¬ poolMem ((aget T.valuePools n).getD []) (.lstn l) := by
        cases hvp : aget T.valuePools n with
        | none => simp [poolMem]
        | some p0 => simpa using hfreshV n p0 hvp
      have := poolMem_add_remove ((aget T.valuePools n).getD []) prio (.lstn l) horig
      injection hpool with hpool'
      rw [← hpool']
      exact this
    · rw [foldl_updPool_vp_ne srcs _ _ n hn] at hpool
      rw [hT1, foldl_updPool_vp_ne srcs _ _ n hn] at hpool
      exact hfreshV n pool hpool
  refine ⟨hlog1, hC2, ?_⟩
  intro ws
  have hT'd : ∀ d, l ∉ derivDependents
      (mkListen T σ l srcs [] f prio true true).1 d := by
    have hdp : (mkListen T σ l srcs [] f prio true true).1.derivPools
        = T.derivPools := by
      rw [hTS]
      rw [show (unsubL T1 l srcs prio, runListener T1 σ l).1
            = unsubL T1 l srcs prio from rfl]
      unfold unsubL
      rw [(foldl_updPool_fields srcs _ _).2.1]
      rw [hT1, (foldl_updPool_fields srcs _ _).2.1]
    rw [derivDependents_congr _ T hdp]
    exact hfreshD
  have hfold : ∀ (ws0 : List (Nat × V)) (σ0 : RState V W),
      ((ws0.foldl
          (fun s e => write (mkListen T σ l srcs [] f prio true true).1 s e.1 e.2)
          σ0).log.countP (fun e => e.1 == l))
        = σ0.log.countP (fun e => e.1 == l) := by
    intro ws0
    induction ws0 with
    | nil => intro σ0; rfl
    | cons e rest ih =>
      intro σ0
      simp only [List.foldl_cons]
      rw [ih]
      exact write_countP _ σ0 e.1 e.2 l hC2 hT'd
  rw [hfold ws]
  rw [hlog1]
  simp [List.countP_append, List.countP_cons]

/-- Witness for C9: a listener with `once` and `immidiate` on a single
Value, followed by one write to that Value: its effect fired exactly
once overall. -/
theorem claim_C9_witness :
    (([0] : List Nat).Nodup
      ∧ (∀ s ∈ ([0] : List Nat), (aget onceSys.2.values s).isSome))
    ∧ (([((0 : Nat), (7 : Int))].foldl
          (fun s e => write onceReg.1 s e.1 e.2) onceReg.2).log.countP
        (fun e => e.1 == 9))
        = onceSys.2.log.countP (fun e => e.1 == 9) + 1 :=
  ⟨⟨by decide, by decide⟩,
    (claim_C9 onceSys.1 onceSys.2 9 [0] (fun vs => vs) 0
      (by decide) (by decide)
      (by
        intro n pool h
        rw [show onceSys.1.valuePools = [(0, ([] : SparseList (List Sub)))] from rfl,
            aget_cons] at h
        by_cases hn : (0 : Nat) = n
        · simp only [if_pos hn] at h
          injection h with h
          rw [← h]
          simp [poolMem]
        · simp [if_neg hn, aget] at h)
      (by
        intro d
        show (9 : Nat) ∉ derivDependents onceSys.1 d
        unfold derivDependents
        rw [show aget onceSys.1.derivPools d = none from rfl]
        simp [popOrder, fillStack, cat])).2.2
      [((0 : Nat), (7 : Int))]⟩

/-! ### Claims C6 and C7: cascading destruction (modelled from the spec) -/

theorem aget_updNode_same (g : Graph) (n : Nat) (f : GNode → GNode) :
    aget (updNode g n f) n = (aget g n).map f := by
  induction g with
  | nil => rfl
  | cons e rest ih =>
    obtain ⟨k, w⟩ := e
    by_cases h : k = n
    · subst h
      simp only [updNode, List.map_cons, if_pos rfl]
      rw [aget_cons, aget_cons]
      simp
    · simp only [updNode, List.map_cons, if_neg h]
      rw [aget_cons, aget_cons]
      simp only [if_neg h]
      exact ih

theorem aget_updNode_ne (g : Graph) (n m : Nat) (f : GNode → GNode)
    (h : m ≠ n) : aget (updNode g n f) m = aget g m := by
  induction g with
  | nil => rfl
  | cons e rest ih =>
    obtain ⟨k, w⟩ := e
    by_cases hk : k = n
    · simp only [updNode, List.map_cons, if_pos hk]
      rw [aget_cons, aget_cons]
      have h' : ¬ k = m := fun hh => h (hh.symm.trans hk)
      simp only [if_neg h']
      exact ih
    · simp only [updNode, List.map_cons, if_neg hk]
      rw [aget_cons, aget_cons]
      by_cases hm : k = m
      · simp [hm]
      · simp only [if_neg hm]
        exact ih

theorem destroyGo_unfold (fuel : Nat) (g : Graph) (lg : List (Nat × Nat))
    (n : Nat) :
    destroyGo (fuel + 1) (g, lg) n
      = match aget g n with
        | none => (g, lg)
        | some node =>
          if node.destroyed then (g, lg)
          else
            node.dependents.foldl (sdHandle fuel n)
              (updNode
                (node.sources.foldl
                  (fun gg s => updNode gg s
                    (fun m => { m with
                      dependents := m.dependents.filter (fun d => d != n) })) g)
                n
                (fun m => { m with destroyed := true, sources := [],
                                   dependents := [] }), lg) := rfl

theorem gmono_refl (st : GState) : GMono st st :=
  ⟨fun _ => rfl,
   fun m a b ha hb => by
     rw [ha] at hb
     injection hb with hb
     subst hb
     exact ⟨id, fun _ h => h, fun _ h => h⟩,
   ⟨[], by simp⟩⟩

theorem gmono_trans {a b c : GState} (h1 : GMono a b) (h2 : GMono b c) :
    GMono a c := by
  refine ⟨fun m => (h2.1 m).trans (h1.1 m), ?_, ?_⟩
  · intro m x z hx hz
    have hbs : (aget b.1 m).isSome = true := by
      rw [h1.1 m, hx]; rfl
    obtain ⟨y, hy⟩ := Option.isSome_iff_exists.mp hbs
    have p1 := h1.2.1 m x y hx hy
    have p2 := h2.2.1 m y z hy hz
    exact ⟨fun hd => p2.1 (p1.1 hd),
           fun d hd => p1.2.1 d (p2.2.1 d hd),
           fun s hs => p1.2.2 s (p2.2.2 s hs)⟩
  · obtain ⟨t1, ht1⟩ := h1.2.2
    obtain ⟨t2, ht2⟩ := h2.2.2
    exact ⟨t1 ++ t2, by rw [ht2, ht1, List.append_assoc]⟩

theorem gmono_updNode (g : Graph) (lg : List (Nat × Nat)) (n : Nat)
    (f : GNode → GNode)
    (hf : ∀ a : GNode, (a.destroyed = true → (f a).destroyed = true)
        ∧ (∀ d ∈ (f a).dependents, d ∈ a.dependents)
        ∧ (∀ s ∈ (f a).sources, s ∈ a.sources)) :
    GMono (g, lg) (updNode g n f, lg) := by
  refine ⟨?_, ?_, ⟨[], by simp⟩⟩
  · intro m
    by_cases h : m = n
    · subst h
      rw [aget_updNode_same]
      cases aget g m <;> rfl
    · rw [aget_updNode_ne g n m f h]
  · intro m a b ha hb
    by_cases h : m = n
    · subst h
      rw [aget_updNode_same, ha] at hb
      injection hb with hb
      subst hb
      exact hf a
    · rw [aget_updNode_ne g n m f h, ha] at hb
      injection hb with hb
      subst hb
      exact ⟨id, fun _ h => h, fun _ h => h⟩

theorem gmono_updNode_at (g : Graph) (lg : List (Nat × Nat)) (n : Nat)
    (f : GNode → GNode) (a0 : GNode) (ha0 : aget g n = some a0)
    (hf : (a0.destroyed = true → (f a0).destroyed = true)
        ∧ (∀ d ∈ (f a0).dependents, d ∈ a0.dependents)
        ∧ (∀ s ∈ (f a0).sources, s ∈ a0.sources)) :
    GMono (g, lg) (updNode g n f, lg) := by
  refine ⟨?_, ?_, ⟨[], by simp⟩⟩
  · intro m
    by_cases h : m = n
    · subst h
      rw [aget_updNode_same]
      cases aget g m <;> rfl
    · rw [aget_updNode_ne g n m f h]
  · intro m a b ha hb
    by_cases h : m = n
    · subst h
      rw [ha0] at ha
      injection ha with ha
      subst ha
      rw [aget_updNode_same, ha0] at hb
      injection hb with hb
      subst hb
      exact hf
    · rw [aget_updNode_ne g n m f h, ha] at hb
      injection hb with hb
      subst hb
      exact ⟨id, fun _ h => h, fun _ h => h⟩

theorem gmono_log_append (g : Graph) (lg : List (Nat × Nat))
    (tail : List (Nat × Nat)) : GMono (g, lg) (g, lg ++ tail) := by
  refine ⟨fun _ => rfl, ?_, ⟨tail, rfl⟩⟩
  intro m a b ha hb
  rw [ha] at hb
  injection hb with hb
  subst hb
  exact ⟨id, fun _ h => h, fun _ h => h⟩

theorem foldl_gmono (step : GState → Nat → GState) (ds : List Nat)
    (hstep : ∀ st1 d, d ∈ ds → GMono st1 (step st1 d)) :
    ∀ st, GMono st (ds.foldl step st) := by
  induction ds with
  | nil => intro st; exact gmono_refl st
  | cons d rest ih =>
    intro st
    simp only [List.foldl_cons]
    exact gmono_trans (hstep st d (by simp))
      (ih (fun st1 d' hd' => hstep st1 d' (by simp [hd'])) (step st d))

theorem foldl_updNode_gmono (ds : List Nat) (g : Graph)
    (lg : List (Nat × Nat)) (f : GNode → GNode)
    (hf : ∀ a : GNode, (a.destroyed = true → (f a).destroyed = true)
        ∧ (∀ d ∈ (f a).dependents, d ∈ a.dependents)
        ∧ (∀ s ∈ (f a).sources, s ∈ a.sources)) :
    GMono (g, lg) (ds.foldl (fun gg s => updNode gg s f) g, lg) := by
  induction ds generalizing g with
  | nil => exact gmono_refl _
  | cons d rest ih =>
    simp only [List.foldl_cons]
    exact gmono_trans (gmono_updNode g lg d f hf) (ih (updNode g d f))

theorem destroyGo_gmono : ∀ (fuel : Nat) (st : GState) (n : Nat),
    GMono st (destroyGo fuel st n) := by
  intro fuel
  induction fuel with
  | zero => intro st n; exact gmono_refl st
  | succ f ih =>
    intro st n
    obtain ⟨g, lg⟩ := st
    rw [destroyGo_unfold]
    cases hn : aget g n with
    | none => exact gmono_refl _
    | some node =>
      by_cases hd : node.destroyed
      · simp only [if_pos hd]
        exact gmono_refl _
      · simp only [if_neg hd]
        have h1 : GMono (g, lg)
            (node.sources.foldl
              (fun gg s => updNode gg s
                (fun m => { m with
                  dependents := m.dependents.filter (fun d => d != n) })) g, lg) :=
          foldl_updNode_gmono _ g lg _
            (fun a => ⟨id, fun d hd2 => List.mem_of_mem_filter hd2, fun _ h => h⟩)
        have h2 : GMono (g, lg)
            (updNode
              (node.sources.foldl
                (fun gg s => updNode gg s
                  (fun m => { m with
                    dependents := m.dependents.filter (fun d => d != n) })) g)
              n (fun m => { m with destroyed := true, sources := [],
                                   dependents := [] }), lg) :=
          gmono_trans h1
            (gmono_updNode _ lg n _
              (fun a => ⟨fun _ => rfl, by simp, by simp⟩))
        refine gmono_trans h2 (foldl_gmono (sdHandle f n) node.dependents ?_ _)
        intro st1 d hd1
        obtain ⟨g1, lg1⟩ := st1
        unfold sdHandle
        cases hgd : aget g1 d with
        | none => exact gmono_log_append g1 lg1 [(d, n)]
        | some dn =>
          simp only
          by_cases hns : (dn.sources.filter (fun s => s != n)).isEmpty
          · simp only [if_pos hns]
            refine gmono_trans (gmono_log_append g1 lg1 [(d, n)]) ?_
            refine gmono_trans ?_ (ih _ d)
            exact gmono_updNode_at g1 (lg1 ++ [(d, n)]) d _ dn hgd
              ⟨id, fun _ h => h, fun s hs => List.mem_of_mem_filter hs⟩
          · simp only [if_neg hns]
            refine gmono_trans (gmono_log_append g1 lg1 [(d, n)]) ?_
            exact gmono_updNode_at g1 (lg1 ++ [(d, n)]) d _ dn hgd
              ⟨id, fun _ h => h, fun s hs => List.mem_of_mem_filter hs⟩

theorem aget_updNode_fwd (g : Graph) (t : Nat) (f : GNode → GNode)
    (a : GNode) (ha : aget g t = some a) :
    aget (updNode g t f) t = some (f a) := by
  rw [aget_updNode_same, ha]
  rfl

theorem aget_updNode_cases (g : Graph) (t m : Nat) (f : GNode → GNode)
    (nm : GNode) (h : aget (updNode g t f) m = some nm) :
    (∃ a, aget g m = some a ∧ nm = f a ∧ m = t)
    ∨ (aget g m = some nm ∧ m ≠ t) := by
  by_cases hmt : m = t
  · subst hmt
    rw [aget_updNode_same] at h
    cases hg : aget g m with
    | none => rw [hg] at h; simp at h
    | some a =>
      rw [hg] at h
      injection h with h
      exact Or.inl ⟨a, rfl, h.symm, rfl⟩
  · rw [aget_updNode_ne g t m f hmt] at h
    exact Or.inr ⟨h, hmt⟩

/-- Filtering a foreign handle out of any dependents pool preserves the
cascade invariant. -/
theorem sib_depfilter (A B : Nat) (bdeps : List Nat) (g : Graph)
    (lg : List (Nat × Nat)) (s n : Nat)
    (hsib : SibInv A B bdeps (g, lg)) (hnbd : n ∉ bdeps) :
    SibInv A B bdeps
      (updNode g s
        (fun m => { m with
          dependents := m.dependents.filter (fun d => d != n) }), lg) := by
  obtain ⟨⟨na, hA, hAd⟩, ⟨nb, hB, hBd, hBs, hBdep⟩, h3, h4, h5, h6⟩ := hsib
  dsimp only [SibInv]
  refine ⟨?_, ?_, ?_, ?_, ?_, ?_⟩
  · by_cases hAs : A = s
    · subst hAs
      exact ⟨_, aget_updNode_fwd g A _ na hA, hAd⟩
    · exact ⟨na, by rw [aget_updNode_ne g s A _ hAs]; exact hA, hAd⟩
  · by_cases hBt : B = s
    · subst hBt
      refine ⟨_, aget_updNode_fwd g B _ nb hB, hBd, hBs, ?_⟩
      show nb.dependents.filter (fun d => d != n) = bdeps
      rw [hBdep]
      apply List.filter_eq_self.mpr
      intro d hd
      have hdn : d ≠ n := fun hh => hnbd (hh ▸ hd)
      simpa using hdn
    · exact ⟨nb, by rw [aget_updNode_ne g s B _ hBt]; exact hB, hBd, hBs, hBdep⟩
  · intro d hd
    obtain ⟨nd, hnd, hnd1, hnd2⟩ := h3 d hd
    by_cases hds : d = s
    · subst hds
      exact ⟨_, aget_updNode_fwd g d _ nd hnd, hnd1, hnd2⟩
    · exact ⟨nd, by rw [aget_updNode_ne g s d _ hds]; exact hnd, hnd1, hnd2⟩
  · intro m nm hm hmem
    rcases aget_updNode_cases g s m _ nm hm with ⟨a, hg, rfl, _⟩ | ⟨hg, _⟩
    · exact h4 m a hg (List.mem_of_mem_filter hmem)
    · exact h4 m nm hg hmem
  · intro d hd m nm hm hmem
    rcases aget_updNode_cases g s m _ nm hm with ⟨a, hg, rfl, _⟩ | ⟨hg, _⟩
    · exact h5 d hd m a hg (List.mem_of_mem_filter hmem)
    · exact h5 d hd m nm hg hmem
  · intro m nm hm hmem
    rcases aget_updNode_cases g s m _ nm hm with ⟨a, hg, rfl, _⟩ | ⟨hg, _⟩
    · exact h6 m a hg hmem
    · exact h6 m nm hg hmem

/-- Tearing down a node other than `A`, `B` or a dependent of `B`
preserves the cascade invariant. -/
theorem sib_teardown (A B : Nat) (bdeps : List Nat) (g : Graph)
    (lg : List (Nat × Nat)) (n : Nat)
    (hsib : SibInv A B bdeps (g, lg))
    (hnA : n ≠ A) (hnB : n ≠ B) (hnbd : n ∉ bdeps) :
    SibInv A B bdeps
      (updNode g n
        (fun m => { m with destroyed := true, sources := [],
                           dependents := [] }), lg) := by
  obtain ⟨⟨na, hA, hAd⟩, ⟨nb, hB, hBd, hBs, hBdep⟩, h3, h4, h5, h6⟩ := hsib
  dsimp only [SibInv]
  refine ⟨?_, ?_, ?_, ?_, ?_, ?_⟩
  · exact ⟨na, by rw [aget_updNode_ne g n A _ (Ne.symm hnA)]; exact hA, hAd⟩
  · exact ⟨nb, by rw [aget_updNode_ne g n B _ (Ne.symm hnB)]; exact hB,
      hBd, hBs, hBdep⟩
  · intro d hd
    obtain ⟨nd, hnd, hnd1, hnd2⟩ := h3 d hd
    have hdn : d ≠ n := fun hh => hnbd (hh ▸ hd)
    exact ⟨nd, by rw [aget_updNode_ne g n d _ hdn]; exact hnd, hnd1, hnd2⟩
  · intro m nm hm hmem
    rcases aget_updNode_cases g n m _ nm hm with ⟨a, hg, rfl, _⟩ | ⟨hg, _⟩
    · simp at hmem
    · exact h4 m nm hg hmem
  · intro d hd m nm hm hmem
    rcases aget_updNode_cases g n m _ nm hm with ⟨a, hg, rfl, _⟩ | ⟨hg, _⟩
    · simp at hmem
    · exact h5 d hd m nm hg hmem
  · intro m nm hm hmem
    rcases aget_updNode_cases g n m _ nm hm with ⟨a, hg, rfl, _⟩ | ⟨hg, _⟩
    · simp at hmem
    · exact h6 m nm hg hmem

/-- Replacing the live-source set of a node other than `B` or a
dependent of `B` by a filtered copy of its current one preserves the
cascade invariant. -/
theorem sib_srcset (A B : Nat) (bdeps : List Nat) (g : Graph)
    (lg : List (Nat × Nat)) (d n : Nat) (dn : GNode)
    (hdn : aget g d = some dn)
    (hsib : SibInv A B bdeps (g, lg))
    (hdB : d ≠ B) (hdbd : d ∉ bdeps) :
    SibInv A B bdeps
      (updNode g d
        (fun m => { m with
          sources := dn.sources.filter (fun s => s != n) }), lg) := by
  obtain ⟨⟨na, hA, hAd⟩, ⟨nb, hB, hBd, hBs, hBdep⟩, h3, h4, h5, h6⟩ := hsib
  dsimp only [SibInv]
  refine ⟨?_, ?_, ?_, ?_, ?_, ?_⟩
  · by_cases hAs : A = d
    · subst hAs
      exact ⟨_, aget_updNode_fwd g A _ na hA, hAd⟩
    · exact ⟨na, by rw [aget_updNode_ne g d A _ hAs]; exact hA, hAd⟩
  · exact ⟨nb, by rw [aget_updNode_ne g d B _ hdB.symm]; exact hB,
      hBd, hBs, hBdep⟩
  · intro d2 hd2
    obtain ⟨nd, hnd, hnd1, hnd2⟩ := h3 d2 hd2
    have hd2d : d2 ≠ d := fun hh => hdbd (hh ▸ hd2)
    exact ⟨nd, by rw [aget_updNode_ne g d d2 _ hd2d]; exact hnd, hnd1, hnd2⟩
  · intro m nm hm hmem
    rcases aget_updNode_cases g d m _ nm hm with ⟨a, hg, rfl, _⟩ | ⟨hg, _⟩
    · exact h4 m a hg hmem
    · exact h4 m nm hg hmem
  · intro d2 hd2 m nm hm hmem
    rcases aget_updNode_cases g d m _ nm hm with ⟨a, hg, rfl, _⟩ | ⟨hg, _⟩
    · exact h5 d2 hd2 m a hg hmem
    · exact h5 d2 hd2 m nm hg hmem
  · intro m nm hm hmem
    rcases aget_updNode_cases g d m _ nm hm with ⟨a, hg, rfl, hmd⟩ | ⟨hg, _⟩
    · subst hmd
      rw [hdn] at hg
      injection hg with hg
      subst hg
      exact h6 _ _ hdn (List.mem_of_mem_filter hmem)
    · exact h6 m nm hg hmem

/-- The cascade invariant does not mention the delivery log. -/
theorem sib_log (A B : Nat) (bdeps : List Nat) (g : Graph)
    (lg lg' : List (Nat × Nat)) (h : SibInv A B bdeps (g, lg)) :
    SibInv A B bdeps (g, lg') := h

theorem foldl_updNode_aget_ne (ss : List Nat) (g : Graph)
    (f : GNode → GNode) (m : Nat) (hm : m ∉ ss) :
    aget (ss.foldl (fun gg s => updNode gg s f) g) m = aget g m := by
  induction ss generalizing g with
  | nil => rfl
  | cons s rest ih =>
    have hms : m ≠ s := fun hh => hm (by simp [hh])
    have hmr : m ∉ rest := fun hh => hm (by simp [hh])
    simp only [List.foldl_cons]
    rw [ih _ hmr]
    exact aget_updNode_ne g s m f hms

/-- Dependents filtering over any list of targets preserves existence,
live-source sets and destroyed flags, and only shrinks dependents. -/
theorem foldl_depfilter_fields (ss : List Nat) (g : Graph) (n : Nat)
    (m : Nat) (a : GNode) (ha : aget g m = some a) :
    ∃ a', aget (ss.foldl
        (fun gg s => updNode gg s
          (fun mm => { mm with
            dependents := mm.dependents.filter (fun d => d != n) })) g) m
        = some a'
      ∧ a'.sources = a.sources ∧ a'.destroyed = a.destroyed
      ∧ (∀ d ∈ a'.dependents, d ∈ a.dependents) := by
  induction ss generalizing g a with
  | nil => exact ⟨a, ha, rfl, rfl, fun _ h => h⟩
  | cons s rest ih =>
    simp only [List.foldl_cons]
    by_cases hms : m = s
    · subst hms
      obtain ⟨a', ha', h1, h2, h3⟩ := ih (updNode g m
          (fun mm => { mm with
            dependents := mm.dependents.filter (fun d => d != n) }))
        ({ a with dependents := a.dependents.filter (fun d => d != n) })
        (aget_updNode_fwd g m
          (fun mm => { mm with
            dependents := mm.dependents.filter (fun d => d != n) }) a ha)
      exact ⟨a', ha', h1, h2, fun d hd => List.mem_of_mem_filter (h3 d hd)⟩
    · obtain ⟨a', ha', h1, h2, h3⟩ := ih (updNode g s
          (fun mm => { mm with
            dependents := mm.dependents.filter (fun d => d != n) })) a
        (by
          rw [aget_updNode_ne g s m
            (fun mm => { mm with
              dependents := mm.dependents.filter (fun d => d != n) }) hms]
          exact ha)
      exact ⟨a', ha', h1, h2, h3⟩

theorem mem_first_split {a : α} {l : List α} (h : a ∈ l) :
    ∃ s t, l = s ++ a :: t ∧ a ∉ s := by
  induction l with
  | nil => simp at h
  | cons b rest ih =>
    by_cases hb : b = a
    · subst hb
      exact ⟨[], rest, rfl, by simp⟩
    · have hmem : a ∈ rest := by
        rcases List.mem_cons.mp h with hh | hh
        · exact absurd hh.symm hb
        · exact hh
      obtain ⟨s, t, hst, hns⟩ := ih hmem
      refine ⟨b :: s, t, by simp [hst], ?_⟩
      intro hmem2
      rcases List.mem_cons.mp hmem2 with hh | hh
      · exact hb hh.symm
      · exact hns hh

theorem gmono_log_mem {st st' : GState} (h : GMono st st') {e : Nat × Nat}
    (he : e ∈ st.2) : e ∈ st'.2 := by
  obtain ⟨tail, ht⟩ := h.2.2
  rw [ht]
  exact List.mem_append_left _ he

theorem gmono_preserves_nodep {st st' : GState} (h : GMono st st') (B : Nat)
    (hB : ∀ m nm, aget st.1 m = some nm → B ∉ nm.dependents) :
    ∀ m nm, aget st'.1 m = some nm → B ∉ nm.dependents := by
  intro m nm hm hmem
  have hsome : (aget st.1 m).isSome = true := by
    rw [← h.1 m, hm]; rfl
  obtain ⟨a, ha⟩ := Option.isSome_iff_exists.mp hsome
  exact hB m a ha ((h.2.1 m a nm ha hm).2.1 B hmem)

theorem gmono_preserves_destroyedB {st st' : GState} (h : GMono st st')
    (B : Nat) (nb : GNode) (hB : aget st.1 B = some nb)
    (hd : nb.destroyed = true) :
    ∃ nb', aget st'.1 B = some nb' ∧ nb'.destroyed = true
      ∧ (∀ s ∈ nb'.sources, s ∈ nb.sources)
      ∧ (∀ d ∈ nb'.dependents, d ∈ nb.dependents) := by
  have hsome : (aget st'.1 B).isSome = true := by
    rw [h.1 B, hB]; rfl
  obtain ⟨nb', hnb'⟩ := Option.isSome_iff_exists.mp hsome
  have hp := h.2.1 B nb nb' hB hnb'
  exact ⟨nb', hnb', hp.1 hd, hp.2.2, hp.2.1⟩

theorem sdHandle_gmono (f n : Nat) (st : GState) (d : Nat) :
    GMono st (sdHandle f n st d) := by
  obtain ⟨g1, lg1⟩ := st
  unfold sdHandle
  cases hgd : aget g1 d with
  | none => exact gmono_log_append g1 lg1 [(d, n)]
  | some dn =>
    simp only
    by_cases hns : (dn.sources.filter (fun s => s != n)).isEmpty
    · simp only [if_pos hns]
      refine gmono_trans (gmono_log_append g1 lg1 [(d, n)]) ?_
      refine gmono_trans ?_ (destroyGo_gmono f _ d)
      exact gmono_updNode_at g1 (lg1 ++ [(d, n)]) d _ dn hgd
        ⟨id, fun _ h => h, fun s hs => List.mem_of_mem_filter hs⟩
    · simp only [if_neg hns]
      refine gmono_trans (gmono_log_append g1 lg1 [(d, n)]) ?_
      exact gmono_updNode_at g1 (lg1 ++ [(d, n)]) d _ dn hgd
        ⟨id, fun _ h => h, fun s hs => List.mem_of_mem_filter hs⟩

theorem sdHandle_log_mem (f n : Nat) (st : GState) (d : Nat) :
    (d, n) ∈ (sdHandle f n st d).2 := by
  obtain ⟨g1, lg1⟩ := st
  unfold sdHandle
  cases hgd : aget g1 d with
  | none => simp
  | some dn =>
    simp only
    by_cases hns : (dn.sources.filter (fun s => s != n)).isEmpty
    · simp only [if_pos hns]
      exact gmono_log_mem (destroyGo_gmono f _ d) (by simp)
    · simp only [if_neg hns]
      simp

theorem handle_fold_logs (f n : Nat) (ds : List Nat) :
    ∀ (st : GState) (d : Nat), d ∈ ds →
      (d, n) ∈ (ds.foldl (sdHandle f n) st).2 := by
  induction ds with
  | nil => intro st d hd; simp at hd
  | cons d0 rest ih =>
    intro st d hd
    simp only [List.foldl_cons]
    rcases List.mem_cons.mp hd with rfl | hmem
    · exact gmono_log_mem
        (foldl_gmono (sdHandle f n) rest
          (fun st1 d' _ => sdHandle_gmono f n st1 d') _)
        (sdHandle_log_mem f n st d)
    · exact ih _ d hmem

/-- Processing SourceDestroyed deliveries to nodes other than `B` or a
dependent of `B` keeps the cascade invariant, provided destruction of
such nodes with the remaining fuel does. -/
theorem sib_handle_fold (A B : Nat) (bdeps : List Nat) (f n : Nat)
    (hrec : ∀ (st : GState) (d : Nat), SibInv A B bdeps st → d ≠ B
      → d ∉ bdeps → SibInv A B bdeps (destroyGo f st d)) :
    ∀ (ds : List Nat) (st : GState), SibInv A B bdeps st
      → (∀ d ∈ ds, d ≠ B ∧ d ∉ bdeps)
      → SibInv A B bdeps (ds.foldl (sdHandle f n) st) := by
  intro ds
  induction ds with
  | nil => intro st hsib _; exact hsib
  | cons d rest ih =>
    intro st hsib hds
    obtain ⟨hdB, hdbd⟩ := hds d (by simp)
    simp only [List.foldl_cons]
    refine ih _ ?_ (fun d' hd' => hds d' (by simp [hd']))
    obtain ⟨g1, lg1⟩ := st
    unfold sdHandle
    cases hgd : aget g1 d with
    | none => exact sib_log A B bdeps g1 lg1 _ hsib
    | some dn =>
      simp only
      by_cases hns : (dn.sources.filter (fun s => s != n)).isEmpty
      · simp only [if_pos hns]
        refine hrec _ d ?_ hdB hdbd
        exact sib_srcset A B bdeps g1 _ d n dn hgd
          (sib_log A B bdeps g1 lg1 _ hsib) hdB hdbd
      · simp only [if_neg hns]
        exact sib_srcset A B bdeps g1 _ d n dn hgd
          (sib_log A B bdeps g1 lg1 _ hsib) hdB hdbd

/-- Destroying any node other than `B` or a dependent of `B` preserves
the cascade invariant. -/
theorem sib_preserved (A B : Nat) (bdeps : List Nat) :
    ∀ (fuel : Nat) (st : GState) (n : Nat), SibInv A B bdeps st
      → n ≠ B → n ∉ bdeps → SibInv A B bdeps (destroyGo fuel st n) := by
  intro fuel
  induction fuel with
  | zero => intro st n hsib _ _; exact hsib
  | succ f ih =>
    intro st n hsib hnB hnbd
    obtain ⟨g, lg⟩ := st
    rw [destroyGo_unfold]
    cases hn : aget g n with
    | none => exact hsib
    | some node =>
      by_cases hd : node.destroyed
      · simp only [if_pos hd]
        exact hsib
      · simp only [if_neg hd]
        have hnA : n ≠ A := by
          intro hh
          subst hh
          obtain ⟨na, hA, hAd⟩ := hsib.1
          rw [hn] at hA
          injection hA with hA
          subst hA
          exact hd hAd
        have hsib1 : SibInv A B bdeps
            (node.sources.foldl
              (fun gg s => updNode gg s
                (fun m => { m with
                  dependents := m.dependents.filter (fun d => d != n) })) g,
             lg) := by
          clear hn
          induction node.sources generalizing g with
          | nil => exact hsib
          | cons s rest ihs =>
            simp only [List.foldl_cons]
            exact ihs _ (sib_depfilter A B bdeps g lg s n hsib hnbd)
        have hsib2 : SibInv A B bdeps
            (updNode _ n
              (fun m => { m with destroyed := true, sources := [],
                                 dependents := [] }), lg) :=
          sib_teardown A B bdeps _ lg n hsib1 hnA hnB hnbd
        refine sib_handle_fold A B bdeps f n
          (fun st1 d1 h1 h2 h3 => ih st1 d1 h1 h2 h3)
          node.dependents _ hsib2 ?_
        intro d' hd'
        constructor
        · intro hh
          subst hh
          exact hsib.2.2.2.1 n node hn hd'
        · intro hh
          exact hnB (hsib.2.2.2.2.1 d' hh n node hn hd')

/-- Core of claims C6 and C7: destroying `A` cascades to its dependent
`B` whose live-source set is exactly `{A}` — `B` ends up destroyed with
empty live-source set, absent from every dependents pool, and every
dependent of `B` received the SourceDestroyed message `(d, B)`. -/
theorem cascadeDestroys (A B : Nat) (g : Graph) (lg : List (Nat × Nat))
    (nA nB : GNode) (fuel : Nat)
    (hA : aget g A = some nA) (hAlive : nA.destroyed = false)
    (hB : aget g B = some nB) (hBlive : nB.destroyed = false)
    (hBsrc : nB.sources = [A]) (hAB : A ≠ B)
    (hABdep : A ∉ nB.dependents)
    (hBonly : ∀ m nm, aget g m = some nm → B ∈ nm.dependents → m = A)
    (hBin : B ∈ nA.dependents)
    (hBdeps : ∀ d ∈ nB.dependents, ∃ nd, aget g d = some nd
        ∧ nd.destroyed = false ∧ nd.sources = [B])
    (hdepOnly : ∀ d ∈ nB.dependents, ∀ m nm, aget g m = some nm
        → d ∈ nm.dependents → m = B)
    (hsrcB : ∀ m nm, aget g m = some nm → B ∈ nm.sources → m ∈ nB.dependents)
    (hfuel : 2 ≤ fuel) :
    (∃ nb', aget (destroyGo fuel (g, lg) A).1 B = some nb'
        ∧ nb'.destroyed = true ∧ nb'.sources = [] ∧ nb'.dependents = [])
    ∧ (∀ m nm, aget (destroyGo fuel (g, lg) A).1 m = some nm
        → B ∉ nm.dependents)
    ∧ (∀ d ∈ nB.dependents, (d, B) ∈ (destroyGo fuel (g, lg) A).2) := by
  have hBB : B ∉ nB.dependents := by
    intro hmem
    obtain ⟨nd, hnd, _, hnds⟩ := hBdeps B hmem
    rw [hB] at hnd
    injection hnd with hnd
    subst hnd
    rw [hBsrc] at hnds
    exact hAB (by injection hnds)
  obtain ⟨f1, rfl⟩ : ∃ f1, fuel = f1 + 1 := ⟨fuel - 1, by omega⟩
  have hf1 : 1 ≤ f1 := by omega
  rw [destroyGo_unfold, hA]
  dsimp only
  rw [if_neg (by simp [hAlive])]
  have hBnotSrcA : B ∉ nA.sources := fun hmem => hABdep (hsrcB A nA hA hmem)
  have hGm1 : GMono (g, lg)
      (nA.sources.foldl
        (fun gg s => updNode gg s
          (fun m => { m with
            dependents := m.dependents.filter (fun d => d != A) })) g, lg) :=
    foldl_updNode_gmono _ g lg _
      (fun a => ⟨id, fun d hd => List.mem_of_mem_filter hd, fun _ h => h⟩)
  obtain ⟨a1, ha1, ha1s, ha1d, ha1dep⟩ :=
    foldl_depfilter_fields nA.sources g A A nA hA
  have hg1B : aget (nA.sources.foldl
      (fun gg s => updNode gg s
        (fun m => { m with
          dependents := m.dependents.filter (fun d => d != A) })) g) B
      = some nB := by
    rw [foldl_updNode_aget_ne nA.sources g _ B hBnotSrcA]
    exact hB
  have hsib2 : SibInv A B nB.dependents
      (updNode
        (nA.sources.foldl
          (fun gg s => updNode gg s
            (fun m => { m with
              dependents := m.dependents.filter (fun d => d != A) })) g)
        A
        (fun m => { m with destroyed := true, sources := [],
                           dependents := [] }), lg) := by
    dsimp only [SibInv]
    refine ⟨?_, ?_, ?_, ?_, ?_, ?_⟩
    · exact ⟨_, aget_updNode_fwd _ A _ a1 ha1, rfl⟩
    · refine ⟨nB, ?_, hBlive, hBsrc, rfl⟩
      rw [aget_updNode_ne _ A B _ (Ne.symm hAB)]
      exact hg1B
    · intro d hd
      obtain ⟨nd, hnd, hnd1, hnd2⟩ := hBdeps d hd
      have hdA : d ≠ A := fun hh => hABdep (hh ▸ hd)
      obtain ⟨nd', hnd', h1, h2, _⟩ :=
        foldl_depfilter_fields nA.sources g A d nd hnd
      refine ⟨nd', ?_, by rw [h2]; exact hnd1, by rw [h1]; exact hnd2⟩
      rw [aget_updNode_ne _ A d _ hdA]
      exact hnd'
    · intro m nm hm hmem
      rcases aget_updNode_cases _ A m _ nm hm with ⟨a, hg, rfl, _⟩ | ⟨hg, hmA⟩
      · simp at hmem
      · have hsome : (aget g m).isSome = true := by
          rw [← hGm1.1 m]
          dsimp only
          rw [hg]
          rfl
        obtain ⟨a0, ha0⟩ := Option.isSome_iff_exists.mp hsome
        have hsub := (hGm1.2.1 m a0 nm ha0 hg).2.1
        exact hmA (hBonly m a0 ha0 (hsub B hmem))
    · intro d hd m nm hm hmem
      rcases aget_updNode_cases _ A m _ nm hm with ⟨a, hg, rfl, _⟩ | ⟨hg, hmA⟩
      · simp at hmem
      · have hsome : (aget g m).isSome = true := by
          rw [← hGm1.1 m]
          dsimp only
          rw [hg]
          rfl
        obtain ⟨a0, ha0⟩ := Option.isSome_iff_exists.mp hsome
        have hsub := (hGm1.2.1 m a0 nm ha0 hg).2.1
        exact hdepOnly d hd m a0 ha0 (hsub d hmem)
    · intro m nm hm hmem
      rcases aget_updNode_cases _ A m _ nm hm with ⟨a, hg, rfl, _⟩ | ⟨hg, hmA⟩
      · simp at hmem
      · have hsome : (aget g m).isSome = true := by
          rw [← hGm1.1 m]
          dsimp only
          rw [hg]
          rfl
        obtain ⟨a0, ha0⟩ := Option.isSome_iff_exists.mp hsome
        have hsub := (hGm1.2.1 m a0 nm ha0 hg).2.2
        exact hsrcB m a0 ha0 (hsub B hmem)
  obtain ⟨ds1, ds2, hsplit, hBds1⟩ := mem_first_split hBin
  rw [hsplit, List.foldl_append, List.foldl_cons]
  have helems : ∀ d ∈ ds1, d ≠ B ∧ d ∉ nB.dependents := by
    intro d hd
    have hdmem : d ∈ nA.dependents := by
      rw [hsplit]
      exact List.mem_append_left _ hd
    constructor
    · intro hh
      subst hh
      exact hBds1 hd
    · intro hh
      exact hAB (hdepOnly d hh A nA hA hdmem)
  have hsibmid := sib_handle_fold A B nB.dependents f1 A
    (fun st1 d1 h1 h2 h3 => sib_preserved A B nB.dependents f1 st1 d1 h1 h2 h3)
    ds1 _ hsib2 helems
  obtain ⟨hmidA, ⟨nbm, hnbm, hnbmd, hnbms, hnbmdep⟩, c3m, c4m, c5m, c6m⟩ :=
    hsibmid
  obtain ⟨f2, rfl⟩ : ∃ f2, f1 = f2 + 1 := ⟨f1 - 1, by omega⟩
  set stmid := ds1.foldl (sdHandle (f2 + 1) A)
    (updNode
      (nA.sources.foldl
        (fun gg s => updNode gg s
          (fun m => { m with
            dependents := m.dependents.filter (fun d => d != A) })) g)
      A
      (fun m => { m with destroyed := true, sources := [],
                         dependents := [] }), lg) with hstmid
  have hns : nbm.sources.filter (fun s => s != A) = [] := by
    rw [hnbms]
    simp
  have hstep : sdHandle (f2 + 1) A stmid B
      = nB.dependents.foldl (sdHandle f2 B)
          (updNode
            (updNode stmid.1 B (fun m => { m with sources := [] }))
            B
            (fun m => { m with destroyed := true, sources := [],
                               dependents := [] }),
           stmid.2 ++ [(B, A)]) := by
    unfold sdHandle
    rw [hnbm]
    dsimp only
    rw [hns]
    rw [if_pos (by rfl)]
    have hg3B : aget (updNode stmid.1 B (fun m => { m with sources := [] })) B
        = some { nbm with sources := [] } :=
      aget_updNode_fwd stmid.1 B _ nbm hnbm
    rw [destroyGo_unfold, hg3B]
    dsimp only
    rw [if_neg (by simp [hnbmd])]
    rw [List.foldl_nil, hnbmdep]
    rfl
  rw [hstep]
  have hg2'B : aget (updNode
      (updNode stmid.1 B (fun m => { m with sources := [] }))
      B (fun m => { m with destroyed := true, sources := [],
                           dependents := [] })) B
      = some ⟨[], [], true⟩ := by
    rw [aget_updNode_fwd _ B _ { nbm with sources := [] }
      (aget_updNode_fwd stmid.1 B _ nbm hnbm)]
  have hnodep2' : ∀ m nm, aget (updNode
      (updNode stmid.1 B (fun m => { m with sources := [] }))
      B (fun m => { m with destroyed := true, sources := [],
                           dependents := [] })) m = some nm
      → B ∉ nm.dependents := by
    intro m nm hm hmem
    rcases aget_updNode_cases _ B m _ nm hm with ⟨a, hg, rfl, _⟩ | ⟨hg, _⟩
    · simp at hmem
    · rcases aget_updNode_cases _ B m _ nm hg with ⟨a, hg2, rfl, rfl⟩ | ⟨hg2, _⟩
      · rw [hnbm] at hg2
        injection hg2 with hg2
        subst hg2
        rw [show ({ nbm with sources := [] } : GNode).dependents
              = nB.dependents from hnbmdep] at hmem
        exact hBB hmem
      · exact c4m m nm hg2 hmem
  have hfoldmono : GMono
      (updNode
        (updNode stmid.1 B (fun m => { m with sources := [] }))
        B (fun m => { m with destroyed := true, sources := [],
                             dependents := [] }),
       stmid.2 ++ [(B, A)])
      (nB.dependents.foldl (sdHandle f2 B)
        (updNode
          (updNode stmid.1 B (fun m => { m with sources := [] }))
          B (fun m => { m with destroyed := true, sources := [],
                               dependents := [] }),
         stmid.2 ++ [(B, A)])) :=
    foldl_gmono (sdHandle f2 B) nB.dependents
      (fun st1 d _ => sdHandle_gmono f2 B st1 d) _
  have hrestmono : GMono
      (nB.dependents.foldl (sdHandle f2 B)
        (updNode
          (updNode stmid.1 B (fun m => { m with sources := [] }))
          B (fun m => { m with destroyed := true, sources := [],
                               dependents := [] }),
         stmid.2 ++ [(B, A)]))
      (ds2.foldl (sdHandle (f2 + 1) A)
        (nB.dependents.foldl (sdHandle f2 B)
          (updNode
            (updNode stmid.1 B (fun m => { m with sources := [] }))
            B (fun m => { m with destroyed := true, sources := [],
                                 dependents := [] }),
           stmid.2 ++ [(B, A)]))) :=
    foldl_gmono (sdHandle (f2 + 1) A) ds2
      (fun st1 d _ => sdHandle_gmono (f2 + 1) A st1 d) _
  obtain ⟨nb1, hnb1, hnb1d, hnb1s, hnb1dep⟩ :=
    gmono_preserves_destroyedB hfoldmono B ⟨[], [], true⟩ hg2'B rfl
  obtain ⟨nb2, hnb2, hnb2d, hnb2s, hnb2dep⟩ :=
    gmono_preserves_destroyedB hrestmono B nb1 hnb1 hnb1d
  refine ⟨⟨nb2, hnb2, hnb2d, ?_, ?_⟩, ?_, ?_⟩
  · apply List.eq_nil_iff_forall_not_mem.mpr
    intro x hx
    have h1 := hnb1s x (hnb2s x hx)
    simp at h1
  · apply List.eq_nil_iff_forall_not_mem.mpr
    intro x hx
    have h1 := hnb1dep x (hnb2dep x hx)
    simp at h1
  · exact gmono_preserves_nodep hrestmono B
      (gmono_preserves_nodep hfoldmono B hnodep2')
  · intro d hd
    exact gmono_log_mem hrestmono (handle_fold_logs f2 B nB.dependents _ d hd)

theorem cascadeGraph_cases (m : Nat) (nm : GNode)
    (h : aget cascadeGraph m = some nm) :
    (m = 0 ∧ nm = ⟨[], [1], false⟩)
    ∨ (m = 1 ∧ nm = ⟨[0], [2], false⟩)
    ∨ (m = 2 ∧ nm = ⟨[1], [], false⟩) := by
  have h' : aget
      [ (0, (⟨[], [1], false⟩ : GNode)),
        (1, ⟨[0], [2], false⟩),
        (2, ⟨[1], [], false⟩) ] m = some nm := h
  rw [aget_cons, aget_cons, aget_cons] at h'
  split_ifs at h' with h0 h1 h2
  · injection h' with h'
    exact Or.inl ⟨h0.symm, h'.symm⟩
  · injection h' with h'
    exact Or.inr (Or.inl ⟨h1.symm, h'.symm⟩)
  · injection h' with h'
    exact Or.inr (Or.inr ⟨h2.symm, h'.symm⟩)
  · simp [aget, List.find?] at h'

/-- C6: destroying a Derivation `A` that is the sole remaining live
source of a downstream Derivation `B` recursively destroys `B`: `B` is
destroyed, its live-source set becomes empty, `B` has been removed from
every dependents pool (its own pool included), and `B` propagated
SourceDestroyed onward: every dependent or listener `d` of `B` received
the message `(d, B)`. -/
theorem claim_C6 (A B : Nat) (g : Graph) (nA nB : GNode) (fuel : Nat)
    (hA : aget g A = some nA) (hAlive : nA.destroyed = false)
    (hB : aget g B = some nB) (hBlive : nB.destroyed = false)
    (hBsrc : nB.sources = [A]) (hAB : A ≠ B)
    (hABdep : A ∉ nB.dependents)
    (hBonly : ∀ m nm, aget g m = some nm → B ∈ nm.dependents → m = A)
    (hBin : B ∈ nA.dependents)
    (hBdeps : ∀ d ∈ nB.dependents, ∃ nd, aget g d = some nd
        ∧ nd.destroyed = false ∧ nd.sources = [B])
    (hdepOnly : ∀ d ∈ nB.dependents, ∀ m nm, aget g m = some nm
        → d ∈ nm.dependents → m = B)
    (hsrcB : ∀ m nm, aget g m = some nm → B ∈ nm.sources → m ∈ nB.dependents)
    (hfuel : 2 ≤ fuel) :
    isDestroyed (destroyGo fuel (g, []) A).1 B = true
    ∧ (∃ nb', aget (destroyGo fuel (g, []) A).1 B = some nb'
        ∧ nb'.sources = [] ∧ nb'.dependents = [])
    ∧ (∀ m nm, aget (destroyGo fuel (g, []) A).1 m = some nm
        → B ∉ nm.dependents)
    ∧ (∀ d ∈ nB.dependents, (d, B) ∈ (destroyGo fuel (g, []) A).2) := by
  obtain ⟨⟨nb', hnb', hd, hs, hdep⟩, hnodep, hlogs⟩ :=
    cascadeDestroys A B g [] nA nB fuel hA hAlive hB hBlive hBsrc hAB hABdep
      hBonly hBin hBdeps hdepOnly hsrcB hfuel
  refine ⟨?_, ⟨nb', hnb', hs, hdep⟩, hnodep, hlogs⟩
  unfold isDestroyed
  rw [hnb']
  exact hd

/-- Witness for C6 at the concrete three-node chain `cascadeGraph`
(`A = 0`, `B = 1`, listener `2`). -/
theorem claim_C6_witness :
    aget cascadeGraph 1 = some ⟨[0], [2], false⟩
    ∧ isDestroyed (destroyGo 3 (cascadeGraph, []) 0).1 1 = true
    ∧ (2, 1) ∈ (destroyGo 3 (cascadeGraph, []) 0).2 := by
  have h := claim_C6 0 1 cascadeGraph ⟨[], [1], false⟩ ⟨[0], [2], false⟩ 3
    rfl rfl rfl rfl rfl (by decide) (by decide)
    (fun m nm hm hmem => by
      rcases cascadeGraph_cases m nm hm with ⟨rfl, rfl⟩ | ⟨rfl, rfl⟩ | ⟨rfl, rfl⟩
      · rfl
      · exact absurd hmem (by decide)
      · exact absurd hmem (by decide))
    (by decide)
    (fun d hd => by
      have hd2 : d = 2 := by simpa using hd
      subst hd2
      exact ⟨⟨[1], [], false⟩, rfl, rfl, rfl⟩)
    (fun d hd m nm hm hmem => by
      have hd2 : d = 2 := by simpa using hd
      subst hd2
      rcases cascadeGraph_cases m nm hm with ⟨rfl, rfl⟩ | ⟨rfl, rfl⟩ | ⟨rfl, rfl⟩
      · exact absurd hmem (by decide)
      · rfl
      · exact absurd hmem (by decide))
    (fun m nm hm hmem => by
      rcases cascadeGraph_cases m nm hm with ⟨rfl, rfl⟩ | ⟨rfl, rfl⟩ | ⟨rfl, rfl⟩
      · exact absurd hmem (by decide)
      · exact absurd hmem (by decide)
      · decide)
    (by decide)
  exact ⟨rfl, h.1, h.2.2.2 2 (by decide)⟩

/-- C7: reading a destroyed derivation raises the synchronous error
"R: cannot read destroyed derivation!", both after an explicit
`destroy()` of the node itself and after a cascading destruction
triggered by destroying its last live source. -/
theorem claim_C7 (g : Graph) (fuel : Nat) :
    (∀ n node, aget g n = some node → node.destroyed = false → 1 ≤ fuel →
      readDestroyedGuard (destroyGo fuel (g, []) n).1 n
        = .error "R: cannot read destroyed derivation!")
    ∧ (∀ A B nA nB,
        aget g A = some nA → nA.destroyed = false →
        aget g B = some nB → nB.destroyed = false →
        nB.sources = [A] → A ≠ B → A ∉ nB.dependents →
        (∀ m nm, aget g m = some nm → B ∈ nm.dependents → m = A) →
        B ∈ nA.dependents →
        (∀ d ∈ nB.dependents, ∃ nd, aget g d = some nd
          ∧ nd.destroyed = false ∧ nd.sources = [B]) →
        (∀ d ∈ nB.dependents, ∀ m nm, aget g m = some nm
          → d ∈ nm.dependents → m = B) →
        (∀ m nm, aget g m = some nm → B ∈ nm.sources → m ∈ nB.dependents) →
        2 ≤ fuel →
        readDestroyedGuard (destroyGo fuel (g, []) A).1 B
          = .error "R: cannot read destroyed derivation!") := by
  constructor
  · intro n node hget hlive hfuel
    obtain ⟨f1, rfl⟩ : ∃ f1, fuel = f1 + 1 := ⟨fuel - 1, by omega⟩
    rw [destroyGo_unfold, hget]
    dsimp only
    rw [if_neg (by simp [hlive])]
    obtain ⟨a1, ha1, _, _, _⟩ :=
      foldl_depfilter_fields node.sources g n n node hget
    have hg2n : aget (updNode
        (node.sources.foldl
          (fun gg s => updNode gg s
            (fun m => { m with
              dependents := m.dependents.filter (fun d => d != n) })) g)
        n
        (fun m => { m with destroyed := true, sources := [],
                           dependents := [] })) n
        = some { a1 with destroyed := true, sources := [],
                         dependents := [] } :=
      aget_updNode_fwd _ n _ a1 ha1
    have hmono := foldl_gmono (sdHandle f1 n) node.dependents
      (fun st1 d _ => sdHandle_gmono f1 n st1 d)
      (updNode
        (node.sources.foldl
          (fun gg s => updNode gg s
            (fun m => { m with
              dependents := m.dependents.filter (fun d => d != n) })) g)
        n
        (fun m => { m with destroyed := true, sources := [],
                           dependents := [] }), [])
    obtain ⟨nb', hnb', hdest, _, _⟩ :=
      gmono_preserves_destroyedB hmono n _ hg2n rfl
    unfold readDestroyedGuard
    rw [hnb']
    dsimp only
    rw [if_pos hdest]
  · intro A B nA nB hA hAlive hB hBlive hBsrc hAB hABdep hBonly hBin hBdeps
      hdepOnly hsrcB hfuel
    obtain ⟨⟨nb', hnb', hdest, _, _⟩, _, _⟩ :=
      cascadeDestroys A B g [] nA nB fuel hA hAlive hB hBlive hBsrc hAB
        hABdep hBonly hBin hBdeps hdepOnly hsrcB hfuel
    unfold readDestroyedGuard
    rw [hnb']
    dsimp only
    rw [if_pos hdest]

/-- Witness for C7 at the concrete three-node chain `cascadeGraph`:
explicitly destroying node `1`, and destroying node `0` (which cascades
to `1`), both make a read of `1` raise the synchronous error. -/
theorem claim_C7_witness :
    readDestroyedGuard (destroyGo 3 (cascadeGraph, []) 1).1 1
      = .error "R: cannot read destroyed derivation!"
    ∧ readDestroyedGuard (destroyGo 3 (cascadeGraph, []) 0).1 1
      = .error "R: cannot read destroyed derivation!" := by
  have h := claim_C7 cascadeGraph 3
  refine ⟨h.1 1 ⟨[0], [2], false⟩ rfl rfl (by decide), ?_⟩
  exact h.2 0 1 ⟨[], [1], false⟩ ⟨[0], [2], false⟩
    rfl rfl rfl rfl rfl (by decide) (by decide)
    (fun m nm hm hmem => by
      rcases cascadeGraph_cases m nm hm with ⟨rfl, rfl⟩ | ⟨rfl, rfl⟩ | ⟨rfl, rfl⟩
      · rfl
      · exact absurd hmem (by decide)
      · exact absurd hmem (by decide))
    (by decide)
    (fun d hd => by
      have hd2 : d = 2 := by simpa using hd
      subst hd2
      exact ⟨⟨[1], [], false⟩, rfl, rfl, rfl⟩)
    (fun d hd m nm hm hmem => by
      have hd2 : d = 2 := by simpa using hd
      subst hd2
      rcases cascadeGraph_cases m nm hm with ⟨rfl, rfl⟩ | ⟨rfl, rfl⟩ | ⟨rfl, rfl⟩
      · exact absurd hmem (by decide)
      · rfl
      · exact absurd hmem (by decide))
    (fun m nm hm hmem => by
      rcases cascadeGraph_cases m nm hm with ⟨rfl, rfl⟩ | ⟨rfl, rfl⟩ | ⟨rfl, rfl⟩
      · exact absurd hmem (by decide)
      · exact absurd hmem (by decide)
      · decide)
    (by decide)

end Reroi
